import Mathlib

/-!
Verification of the Trio card-game engine (`app/game_manager.py`).

The Python engine is shallowly embedded: every operation of
`TrioGameManager` / `GameRoom` / `Player` that the verified claims touch is
translated into a pure Lean function over an explicit `GameRoom` state.
Randomness (deck shuffle, seating shuffle, player-id generation) is passed
in as explicit arguments; network sends are modelled as a list of `Event`
values returned next to the updated room state.  Display-only data
(room ids, room names, player display names, human-readable message texts
beyond their routing) is dropped; everything that feeds back into game
logic is kept.
-/

namespace TrioGame

/-- `Card` (id + number 1-12), from the `Card` dataclass. -/
structure Card where
  id : Nat
  number : Nat
deriving DecidableEq, Repr

/-- The visibility state a middle card id can have in `GameRoom.middle_face_up`:
the Python dict stores `False` (face down), `True` (face up this turn) or the
string `"taken"`; reads use `.get(id, False)`, so a missing key reads as
`down` and we model the dict as a total function into this type. -/
inductive MidFace
  | down
  | up
  | taken
deriving DecidableEq, Repr

/-- `GameMode` enum. -/
inductive GameMode
  | SIMPLE
  | SPICY
deriving DecidableEq, Repr

/-- The `GameRoom.state` string field: `"waiting" | "playing" | "finished"`. -/
inductive Phase
  | waiting
  | playing
  | finished
deriving DecidableEq, Repr

/-- A player (`Player` dataclass): id, sorted hand, captured trios and the
connectivity flag.  Player ids are modelled as naturals. -/
structure PlayerSt where
  pid : Nat
  hand : List Card
  trios : List (List Card)
  connected : Bool
deriving DecidableEq, Repr

/-- The `source` field of `RevealedCard`: the Python code stores the string
`"middle"` or a player id. -/
inductive RevealSource
  | middle
  | player (pid : Nat)
deriving DecidableEq, Repr

/-- One entry of `revealed_this_turn` (`RevealedCard` dataclass);
the display-only `source_name` field is dropped. -/
structure RevealedCard where
  card : Card
  source : RevealSource
  position : Option String
deriving DecidableEq, Repr

/-- ASCII lowercase of one character (`str.lower` on the ASCII strings the
mode field uses). -/
def lowerChar (c : Char) : Char :=
  if 'A' ≤ c ∧ c ≤ 'Z' then Char.ofNat (c.toNat + 32) else c

/-- Python `mode.lower()`. -/
def pyLower (s : String) : String := String.mk (s.data.map lowerChar)

/-- Comparison key used by `Player.sort_hand` (`key=lambda c: c.number`). -/
def cardLE (a b : Card) : Prop := a.number ≤ b.number

instance : DecidableRel cardLE := fun a b => Nat.decLe a.number b.number

instance : IsTotal Card cardLE := ⟨fun a b => Nat.le_total a.number b.number⟩

instance : IsTrans Card cardLE := ⟨fun _ _ _ h h' => Nat.le_trans h h'⟩

/-- `Player.sort_hand`: a stable sort of the hand by card number. -/
def sortHand (l : List Card) : List Card := List.insertionSort cardLE l

/-- `Player.get_lowest`: first card of the (sorted) hand, `None` if empty. -/
def PlayerSt.get_lowest (p : PlayerSt) : Option Card := p.hand.head?

/-- `Player.get_highest`: last card of the (sorted) hand, `None` if empty. -/
def PlayerSt.get_highest (p : PlayerSt) : Option Card := p.hand.getLast?

/-- `Player.remove_card`: drop the first card of the hand carrying the given
id (the hand is unchanged when no card matches). -/
def removeFirstById : List Card → Nat → List Card
  | [], _ => []
  | c :: cs, i => if c.id = i then cs else c :: removeFirstById cs i

/-- The room state (`GameRoom` dataclass).  `middle_face_up` models the
Python dict `card_id -> False | True | "taken"` with `.get`-default `down`.
Display-only fields (`id`, `name`, `created_at`) are dropped. -/
structure GameRoom where
  mode : GameMode
  players : List PlayerSt
  player_order : List Nat
  middle_cards : List Card
  middle_face_up : Nat → MidFace
  current_turn_index : Nat
  revealed_this_turn : List RevealedCard
  state : Phase
  winner : Option Nat
  winner_reason : String
  max_players : Nat
  min_players : Nat

/-- Point update of the `middle_face_up` dict. -/
def updFace (f : Nat → MidFace) (i : Nat) (v : MidFace) : Nat → MidFace :=
  fun j => if j = i then v else f j

/-- Dictionary lookup `room.players[pid]` (first player with the id). -/
def GameRoom.findPlayer (room : GameRoom) (pid : Nat) : Option PlayerSt :=
  room.players.find? (fun p => p.pid == pid)

/-- In-place mutation of the player stored under `pid` in the players dict. -/
def GameRoom.updatePlayer (room : GameRoom) (pid : Nat) (f : PlayerSt → PlayerSt) :
    GameRoom :=
  { room with players := room.players.map (fun p => if p.pid = pid then f p else p) }

/-- `GameRoom.current_player_id` property:
`player_order[current_turn_index % len(player_order)]` while playing. -/
def GameRoom.current_player_id (room : GameRoom) : Option Nat :=
  if room.player_order ≠ [] ∧ room.state = Phase.playing then
    room.player_order.get? (room.current_turn_index % room.player_order.length)
  else none

/-- `GameRoom.get_cards_per_player`: the deal table
`(cards_per_player, cards_in_middle)` keyed by the player count. -/
def get_cards_per_player (player_count : Nat) : Nat × Nat :=
  match player_count with
  | 3 => (9, 9)
  | 4 => (7, 8)
  | 5 => (6, 6)
  | 6 => (5, 6)
  | _ => (5, 6)

/-- `GameRoom.CONNECTIONS`: the fixed SPICY-mode adjacency table, with the
`.get(num1, [])` default for keys outside 1-12. -/
def CONNECTIONS : Nat → List Nat
  | 1 => [2, 3]
  | 2 => [1, 3, 4]
  | 3 => [1, 2, 4, 5]
  | 4 => [2, 3, 5, 6]
  | 5 => [3, 4, 6, 7]
  | 6 => [4, 5, 7, 8]
  | 7 => [5, 6, 8, 9]
  | 8 => [6, 7, 9, 10]
  | 9 => [7, 8, 10, 11]
  | 10 => [8, 9, 11, 12]
  | 11 => [9, 10, 12]
  | 12 => [10, 11]
  | _ => []

/-- An outbound message, reduced to its routing and its `type` tag:
`errorToSocket` is a send on the raw websocket of the requester (used before
a player id exists), `errorToPlayer`/`privateEv` are `send_to_player` calls,
`broadcastEv` is a `broadcast` call. -/
inductive Event
  | errorToSocket (message : String)
  | errorToPlayer (pid : Nat) (message : String)
  | privateEv (pid : Nat) (tag : String)
  | broadcastEv (tag : String)
deriving DecidableEq, Repr

/-- Does an event report an error? -/
def Event.isError : Event → Bool
  | Event.errorToSocket _ => true
  | Event.errorToPlayer _ _ => true
  | Event.privateEv _ _ => false
  | Event.broadcastEv _ => false

/-- `TrioGameManager.create_deck` before the shuffle: ids `0..35`, three
copies of each number 1-12 in order; the shuffle is modelled at the use
sites as an arbitrary permutation of this list. -/
def trioDeck : List Card :=
  (List.range 36).map (fun k => { id := k, number := k / 3 + 1 })

/-- `TrioGameManager.create_room` (the display name and random room code are
dropped; field defaults come from the `GameRoom` dataclass). -/
def create_room (mode : String) : GameRoom :=
  { mode := if pyLower mode = "spicy" then GameMode.SPICY else GameMode.SIMPLE
    players := []
    player_order := []
    middle_cards := []
    middle_face_up := fun _ => MidFace.down
    current_turn_index := 0
    revealed_this_turn := []
    state := Phase.waiting
    winner := none
    winner_reason := ""
    max_players := 6
    min_players := 3 }

/-- `TrioGameManager.connect`: join a room.  The randomly generated player id
is passed in as `newPid`; the result is the updated room, the sent messages
and the returned player id (`None` on failure). -/
def connect (room : GameRoom) (newPid : Nat) : GameRoom × List Event × Option Nat :=
  if room.max_players ≤ room.players.length then
    (room, [Event.errorToSocket "Room is full"], none)
  else if room.state ≠ Phase.waiting then
    (room, [Event.errorToSocket "Game already in progress"], none)
  else
    ({ room with players :=
        room.players ++ [{ pid := newPid, hand := [], trios := [], connected := true }] },
     [Event.broadcastEv "player_joined", Event.privateEv newPid "welcome"],
     some newPid)

/-- `TrioGameManager.disconnect`: flip the connectivity flag and, while the
room is still waiting, remove the seat (room tear-down on empty is a manager
side effect outside the room state). -/
def disconnect (room : GameRoom) (pid : Nat) : GameRoom :=
  let room' := { room with
      players :=
        room.players.map (fun p => if p.pid = pid then { p with connected := false } else p) }
  if room'.state = Phase.waiting then
    { room' with players := room'.players.filter (fun p => ¬ p.pid == pid) }
  else room'

/-- `TrioGameManager.set_game_mode`: only before the game starts. -/
def set_game_mode (room : GameRoom) (mode : String) : GameRoom × List Event :=
  if room.state ≠ Phase.waiting then (room, [])
  else
    ({ room with mode := if pyLower mode = "spicy" then GameMode.SPICY else GameMode.SIMPLE },
     [Event.broadcastEv "mode_changed"])

/-- The dealing loop of `start_game`: each player in dict order takes the
next `n` cards of the deck as their sorted hand; returns the new player list
and the undealt remainder of the deck. -/
def dealHands (n : Nat) : List PlayerSt → List Card → List PlayerSt × List Card
  | [], deck => ([], deck)
  | p :: ps, deck =>
    let rest := dealHands n ps (deck.drop n)
    ({ p with hand := sortHand (deck.take n) } :: rest.1, rest.2)

/-- The private your_turn notification to the current player, when any. -/
def yourTurnEvent (o : Option Nat) : List Event :=
  match o with
  | some cur => [Event.privateEv cur "your_turn"]
  | none => []

/-- `TrioGameManager.start_game`.  The shuffled deck and the shuffled seating
order are passed in (`random.shuffle` results); `requester` is the player who
sent the action.  Note the source checks only the minimum player count — it
never checks the room phase. -/
def start_game (room : GameRoom) (requester : Nat) (deck : List Card)
    (order : List Nat) : GameRoom × List Event :=
  if room.players.length < room.min_players then
    (room, [Event.errorToPlayer requester "Need at least 3 players to start"])
  else
    let counts := get_cards_per_player room.players.length
    let dealt := dealHands counts.1 room.players deck
    let room' := { room with
        state := Phase.playing
        player_order := order
        current_turn_index := 0
        players := dealt.1
        middle_cards := dealt.2.take counts.2
        middle_face_up := fun _ => MidFace.down }
    (room',
     [Event.broadcastEv "game_started"]
       ++ dealt.1.map (fun p => Event.privateEv p.pid "your_hand")
       ++ yourTurnEvent room'.current_player_id
       ++ [Event.broadcastEv "game_state"])

/-- The four possible verdicts of `check_reveal_result` on the current reveal
sequence: no decision yet (fewer than 2 cards), trio, fail, or keep
revealing. -/
inductive Outcome
  | noDecision
  | trio
  | fail
  | continueTurn
deriving DecidableEq, Repr

/-- Python negative indexing helper: `lastNth ns k` is `ns[-1-k]`
(0 when out of range; the source never evaluates it out of range). -/
def lastNth (ns : List Nat) (k : Nat) : Nat := ns.reverse.getD k 0

/-- The decision logic of `check_reveal_result`, on the list of revealed
numbers, with the source's branch order: length `< 2` means no decision;
then the trio test (`numbers[-1] == numbers[-2] == numbers[-3]`, guarded by
length `>= 3`); then the fail test (`numbers[-1] != numbers[-2]`); else
continue. -/
def check_reveal_outcome (ns : List Nat) : Outcome :=
  if ns.length < 2 then Outcome.noDecision
  else if 3 ≤ ns.length ∧ lastNth ns 0 = lastNth ns 1 ∧ lastNth ns 1 = lastNth ns 2 then
    Outcome.trio
  else if lastNth ns 0 ≠ lastNth ns 1 then Outcome.fail
  else Outcome.continueTurn

/-- `numbers = [r.card.number for r in revealed]`. -/
def revealNumbers (room : GameRoom) : List Nat :=
  room.revealed_this_turn.map (fun r => r.card.number)

/-- Python `l[-n:]`: the last `n` elements. -/
def lastN (l : List RevealedCard) (n : Nat) : List RevealedCard :=
  l.drop (l.length - n)

/-- The trio-number pair search of SPICY `check_win_condition`:
`for i, num1 in enumerate(trio_numbers): for num2 in trio_numbers[i+1:]`. -/
def hasConnectedPair : List Nat → Bool
  | [] => false
  | n :: rest => rest.any (fun m => (CONNECTIONS n).contains m) || hasConnectedPair rest

/-- `trio[0].number` (the source never reads it on an empty list). -/
def trioNumber (t : List Card) : Nat := (t.headD { id := 0, number := 0 }).number

/-- `TrioGameManager.check_win_condition`: returns the updated room, the
`True`/`False` result, and the sent messages.  A missing player id would
raise `KeyError` in the source; that branch is unreachable from the call
site and modelled as a no-op. -/
def check_win_condition (room : GameRoom) (pid : Nat) : GameRoom × Bool × List Event :=
  match room.findPlayer pid with
  | none => (room, false, [])
  | some player =>
    let trios := player.trios
    if trios.any (fun trio => trio.all (fun c => c.number == 7)) then
      ({ room with state := Phase.finished, winner := some pid, winner_reason := "7-trio" },
       true, [Event.broadcastEv "game_over"])
    else if room.mode = GameMode.SIMPLE then
      if 3 ≤ trios.length then
        ({ room with state := Phase.finished, winner := some pid, winner_reason := "3_trios" },
         true, [Event.broadcastEv "game_over"])
      else (room, false, [])
    else
      if 2 ≤ trios.length then
        if hasConnectedPair (trios.map trioNumber) then
          ({ room with
              state := Phase.finished
              winner := some pid
              winner_reason := "connected_trios" },
           true, [Event.broadcastEv "game_over"])
        else (room, false, [])
      else (room, false, [])

/-- The `for r in revealed[-3:]` loop of `complete_trio` marking
middle-origin cards as `"taken"`. -/
def markTaken (face : Nat → MidFace) : List RevealedCard → (Nat → MidFace)
  | [] => face
  | r :: rs =>
    match r.source with
    | RevealSource.middle => markTaken (updFace face r.card.id MidFace.taken) rs
    | RevealSource.player _ => markTaken face rs

/-- `TrioGameManager.complete_trio`: capture the last three revealed cards
for the current player, mark middle-origin ones taken, clear the sequence,
run the win check and (on no win) let the same player continue.  The source
dereferences `room.current_player`; the `none` branch would raise and is
modelled as a no-op. -/
def complete_trio (room : GameRoom) : GameRoom × List Event :=
  match room.current_player_id with
  | none => (room, [])
  | some pid =>
    let last3 := lastN room.revealed_this_turn 3
    let trio_cards := last3.map (fun r => r.card)
    let room1 := room.updatePlayer pid (fun p => { p with trios := p.trios ++ [trio_cards] })
    let room2 := { room1 with
        middle_face_up := markTaken room1.middle_face_up last3
        revealed_this_turn := [] }
    let win := check_win_condition room2 pid
    if win.2.1 then
      (win.1,
       [Event.broadcastEv "trio_complete"]
         ++ room2.players.map (fun p => Event.privateEv p.pid "your_hand")
         ++ win.2.2)
    else
      (win.1,
       [Event.broadcastEv "trio_complete"]
         ++ room2.players.map (fun p => Event.privateEv p.pid "your_hand")
         ++ win.2.2
         ++ [Event.broadcastEv "game_state"]
         ++ yourTurnEvent win.1.current_player_id)

/-- One iteration of the `return_revealed_cards` loop: flip a middle-origin
card back face down, or append a hand-origin card back to its seat's hand
and re-sort that hand. -/
def returnOne (room : GameRoom) (r : RevealedCard) : GameRoom :=
  match r.source with
  | RevealSource.middle =>
    { room with middle_face_up := updFace room.middle_face_up r.card.id MidFace.down }
  | RevealSource.player pid =>
    match room.findPlayer pid with
    | none => room
    | some _ => room.updatePlayer pid (fun p => { p with hand := sortHand (p.hand ++ [r.card]) })

/-- `TrioGameManager.return_revealed_cards`: revert every revealed card to
its origin and clear the sequence. -/
def return_revealed_cards (room : GameRoom) : GameRoom × List Event :=
  let room' := room.revealed_this_turn.foldl returnOne room
  ({ room' with revealed_this_turn := [] },
   (room.revealed_this_turn.filterMap (fun r =>
      match r.source with
      | RevealSource.player pid => some (Event.privateEv pid "your_hand")
      | RevealSource.middle => none))
     ++ [Event.broadcastEv "game_state"])

/-- `TrioGameManager.next_turn`: advance the turn pointer modulo the seat
count and clear the reveal sequence.  (`len(player_order) = 0` would raise
`ZeroDivisionError` in the source; it is nonzero in every playing room.) -/
def next_turn (room : GameRoom) : GameRoom × List Event :=
  let room' := { room with
      current_turn_index := (room.current_turn_index + 1) % room.player_order.length
      revealed_this_turn := [] }
  (room',
   [Event.broadcastEv "turn_changed"]
     ++ yourTurnEvent room'.current_player_id
     ++ [Event.broadcastEv "game_state"])

/-- `TrioGameManager.fail_turn`: announce the failure, (after the visible
2.5s delay, which has no state content) return all revealed cards and pass
the turn. -/
def fail_turn (room : GameRoom) : GameRoom × List Event :=
  let ret := return_revealed_cards room
  let nxt := next_turn ret.1
  (nxt.1, [Event.broadcastEv "turn_failed"] ++ ret.2 ++ nxt.2)

/-- `TrioGameManager.check_reveal_result`: dispatch on the outcome of the
current reveal sequence. -/
def check_reveal_result (room : GameRoom) : GameRoom × List Event :=
  match check_reveal_outcome (revealNumbers room) with
  | Outcome.noDecision => (room, [Event.broadcastEv "game_state"])
  | Outcome.trio => complete_trio room
  | Outcome.fail =>
    let f := fail_turn room
    (f.1, [Event.broadcastEv "game_state"] ++ f.2)
  | Outcome.continueTurn =>
    (room, [Event.broadcastEv "reveal_match", Event.broadcastEv "game_state"])

/-- `TrioGameManager.reveal_from_middle`.  Note the guard for a non-playing
room returns silently (no message), while the later guards send private
errors; a card already face up (or taken, equally truthy in the source's
`.get(card_id, False)` test) is rejected. -/
def reveal_from_middle (room : GameRoom) (player_id : Nat) (card_id : Nat) :
    GameRoom × List Event :=
  if room.state ≠ Phase.playing then (room, [])
  else if room.current_player_id ≠ some player_id then
    (room, [Event.errorToPlayer player_id "It is not your turn!"])
  else
    match room.middle_cards.find? (fun c => c.id == card_id) with
    | none => (room, [Event.errorToPlayer player_id "Card not found in middle"])
    | some card =>
      if room.middle_face_up card_id ≠ MidFace.down then
        (room, [Event.errorToPlayer player_id "This card is already face up"])
      else
        let room1 := { room with
            middle_face_up := updFace room.middle_face_up card_id MidFace.up
            revealed_this_turn := room.revealed_this_turn
              ++ [{ card := card, source := RevealSource.middle, position := none }] }
        let res := check_reveal_result room1
        (res.1, [Event.broadcastEv "card_revealed"] ++ res.2)

/-- `TrioGameManager.reveal_from_player`.  Same silent non-playing guard;
then turn, position, target and empty-hand guards with private errors;
then the lowest/highest card is removed from the target's hand and appended
to the reveal sequence. -/
def reveal_from_player (room : GameRoom) (player_id target_player_id : Nat)
    (position : String) : GameRoom × List Event :=
  if room.state ≠ Phase.playing then (room, [])
  else if room.current_player_id ≠ some player_id then
    (room, [Event.errorToPlayer player_id "It is not your turn!"])
  else if position ≠ "lowest" ∧ position ≠ "highest" then
    (room, [Event.errorToPlayer player_id "Must reveal lowest or highest"])
  else
    match room.findPlayer target_player_id with
    | none => (room, [Event.errorToPlayer player_id "Player not found"])
    | some target =>
      if target.hand.isEmpty then
        (room, [Event.errorToPlayer player_id "Target has no cards"])
      else
        match (if position = "lowest" then target.get_lowest else target.get_highest) with
        | none => (room, [])
        | some card =>
          let room1 := room.updatePlayer target_player_id
              (fun p => { p with hand := removeFirstById p.hand card.id })
          let room2 := { room1 with revealed_this_turn := room1.revealed_this_turn
              ++ [{ card := card, source := RevealSource.player target_player_id,
                    position := some position }] }
          let res := check_reveal_result room2
          (res.1,
           [Event.broadcastEv "card_revealed",
            Event.privateEv target_player_id "your_hand",
            Event.broadcastEv "game_state"] ++ res.2)

/-! ### Counting and invariant definitions -/

/-- Total number of cards held in hands across all seats. -/
def handSum (room : GameRoom) : Nat :=
  (room.players.map (fun p => p.hand.length)).sum

/-- Total number of captured trios across all seats. -/
def trioSum (room : GameRoom) : Nat :=
  (room.players.map (fun p => p.trios.length)).sum

/-- Number of middle cards currently face down (the `middle_card_count`
computed by `send_game_state`). -/
def middleFaceDownCount (room : GameRoom) : Nat :=
  (room.middle_cards.filter (fun c => decide (room.middle_face_up c.id = MidFace.down))).length

/-- The card-conservation measure of the spec:
`sum over seats(hand size) + 3 * sum over seats(trios) + middle_remaining`. -/
def cardCount (room : GameRoom) : Nat :=
  handSum room + 3 * trioSum room + middleFaceDownCount room

/-- Player ids in seating-dict order. -/
def pids (room : GameRoom) : List Nat := room.players.map (fun p => p.pid)

/-- Ids of the middle-pile cards, in pile order. -/
def middleIds (room : GameRoom) : List Nat := room.middle_cards.map (fun c => c.id)

/-- Card ids of the middle-origin entries of a reveal sequence. -/
def midSourceIds (l : List RevealedCard) : List Nat :=
  l.filterMap (fun r =>
    match r.source with
    | RevealSource.middle => some r.card.id
    | RevealSource.player _ => none)

/-- A reveal-number sequence that is still pending: the outcome evaluator
left it (and each of its prefixes) undecided or continuing. -/
def seqPending (ns : List Nat) : Prop :=
  ∀ k, k ≤ ns.length →
    check_reveal_outcome (ns.take k) = Outcome.noDecision ∨
    check_reveal_outcome (ns.take k) = Outcome.continueTurn

/-- The number of cards of a pile that a face assignment shows face down. -/
def countDownL (l : List Card) (f : Nat → MidFace) : Nat :=
  (l.filter (fun c => decide (f c.id = MidFace.down))).length

/-- The core of the inductive invariant of a room state, maintained by every
operation reached from a fresh room (with game starts taken from the waiting
phase).  `counting` is the generalised conservation law: cards held in
hands, in captured trios, face down in the middle, or lying in the
in-progress reveal sequence always total 36 once the game has started. -/
structure InvCore (room : GameRoom) : Prop where
  maxP : room.max_players = 6
  minP : room.min_players = 3
  pidsNodup : (pids room).Nodup
  waitingClean : room.state = Phase.waiting →
    (∀ p ∈ room.players, p.hand = [] ∧ p.trios = []) ∧
    room.revealed_this_turn = [] ∧ room.players.length ≤ 6
  counting : room.state ≠ Phase.waiting →
    cardCount room + room.revealed_this_turn.length = 36
  midNodup : room.state ≠ Phase.waiting → (middleIds room).Nodup
  revMidUp : room.state ≠ Phase.waiting →
    ∀ r ∈ room.revealed_this_turn, r.source = RevealSource.middle →
      r.card.id ∈ middleIds room ∧ room.middle_face_up r.card.id = MidFace.up
  revMidNodup : room.state ≠ Phase.waiting →
    (midSourceIds room.revealed_this_turn).Nodup
  revPlayerMem : room.state ≠ Phase.waiting →
    ∀ r ∈ room.revealed_this_turn, ∀ q, r.source = RevealSource.player q → q ∈ pids room
  orderOk : room.state = Phase.playing →
    room.player_order ≠ [] ∧ ∀ q ∈ room.player_order, q ∈ pids room

/-- The full invariant: the core plus pendingness of the resting reveal
sequence (every evaluated prefix, the whole sequence included, was left
undecided or continuing). -/
def Inv (room : GameRoom) : Prop :=
  InvCore room ∧ (room.state ≠ Phase.waiting → seqPending (revealNumbers room))

/-- The facts about a reveal sequence against a room that the fail-revert
counting argument needs: middle-origin entries are distinct, present in the
middle pile and currently face up; hand-origin entries name seated players;
pids and middle ids are duplicate-free. -/
def RevOk (room : GameRoom) (l : List RevealedCard) : Prop :=
  (∀ r ∈ l, r.source = RevealSource.middle →
    r.card.id ∈ middleIds room ∧ room.middle_face_up r.card.id = MidFace.up) ∧
  (midSourceIds l).Nodup ∧
  (∀ r ∈ l, ∀ p, r.source = RevealSource.player p → p ∈ pids room) ∧
  (pids room).Nodup ∧
  (middleIds room).Nodup

/-- The room states reachable through the engine's actual operations:
room creation, joins (with a fresh random player id), disconnects, mode
changes, game starts (with the deck and seating order being arbitrary
permutations, as produced by `random.shuffle`) and the two reveal actions
with their complete trio/fail cascades.  `start_game` carries no phase
guard in the source, so a start step is available in every phase. -/
inductive Reach : GameRoom → Prop
  | created (mode : String) : Reach (create_room mode)
  | joined {r : GameRoom} (pid : Nat) : Reach r → pid ∉ pids r →
      Reach (connect r pid).1
  | left {r : GameRoom} (pid : Nat) : Reach r → Reach (disconnect r pid)
  | modeSet {r : GameRoom} (m : String) : Reach r → Reach (set_game_mode r m).1
  | started {r : GameRoom} (req : Nat) (deck : List Card) (order : List Nat) :
      Reach r → deck.Perm trioDeck → order.Perm (pids r) →
      Reach (start_game r req deck order).1
  | revealedMiddle {r : GameRoom} (pid cid : Nat) : Reach r →
      Reach (reveal_from_middle r pid cid).1
  | revealedPlayer {r : GameRoom} (pid tgt : Nat) (pos : String) : Reach r →
      Reach (reveal_from_player r pid tgt pos).1

/-- Same as `Reach`, but with game starts restricted to rooms still in the
waiting phase (ruling out the unguarded mid-game restart of `start_game`). -/
inductive ReachW : GameRoom → Prop
  | created (mode : String) : ReachW (create_room mode)
  | joined {r : GameRoom} (pid : Nat) : ReachW r → pid ∉ pids r →
      ReachW (connect r pid).1
  | left {r : GameRoom} (pid : Nat) : ReachW r → ReachW (disconnect r pid)
  | modeSet {r : GameRoom} (m : String) : ReachW r → ReachW (set_game_mode r m).1
  | started {r : GameRoom} (req : Nat) (deck : List Card) (order : List Nat) :
      ReachW r → r.state = Phase.waiting → deck.Perm trioDeck → order.Perm (pids r) →
      ReachW (start_game r req deck order).1
  | revealedMiddle {r : GameRoom} (pid cid : Nat) : ReachW r →
      ReachW (reveal_from_middle r pid cid).1
  | revealedPlayer {r : GameRoom} (pid tgt : Nat) (pos : String) : ReachW r →
      ReachW (reveal_from_player r pid tgt pos).1

/-! ### A concrete three-player game trace

Used to evaluate the engine on explicit inputs: a simple-mode room, three
joins, a start with the unshuffled deck and seating `[0, 1, 2]`, then player
0 reveals their three lowest cards (three 1s — a trio), and finally a second
`start_game` is issued against the already-playing room. -/

/-- Fresh simple-mode room. -/
def roomA : GameRoom := create_room "simple"

/-- After three players (ids 0, 1, 2) join. -/
def roomB : GameRoom := (connect (connect (connect roomA 0).1 1).1 2).1

/-- After the game starts with the identity shuffle. -/
def roomC : GameRoom := (start_game roomB 0 trioDeck [0, 1, 2]).1

/-- Player 0 reveals their lowest card (a 1). -/
def roomD : GameRoom := (reveal_from_player roomC 0 0 "lowest").1

/-- Player 0 reveals their lowest card again (a second 1). -/
def roomE : GameRoom := (reveal_from_player roomD 0 0 "lowest").1

/-- Player 0 reveals the third 1: a trio is captured, same player to move. -/
def roomF : GameRoom := (reveal_from_player roomE 0 0 "lowest").1

/-- `start_game` issued against the playing room `roomF`: the source has no
phase guard, so the room is silently re-dealt while the captured trio stays
on player 0's tally. -/
def roomG : GameRoom := (start_game roomF 0 trioDeck [0, 1, 2]).1

/-- The messages emitted by that mid-game restart. -/
def restartEvents : List Event := (start_game roomF 0 trioDeck [0, 1, 2]).2

/-! ### Small literal rooms used to instantiate theorems -/

/-- A SPICY-mode player holding trios of 4s and of 6s (connected numbers). -/
def wTrioPlayer : PlayerSt :=
  { pid := 5
    hand := []
    trios := [[{ id := 0, number := 4 }, { id := 1, number := 4 }, { id := 2, number := 4 }],
              [{ id := 3, number := 6 }, { id := 4, number := 6 }, { id := 5, number := 6 }]]
    connected := true }

/-- A playing SPICY room seating only that player. -/
def wSpicyRoom : GameRoom :=
  { mode := GameMode.SPICY
    players := [wTrioPlayer]
    player_order := [5]
    middle_cards := []
    middle_face_up := fun _ => MidFace.down
    current_turn_index := 0
    revealed_this_turn := []
    state := Phase.playing
    winner := none
    winner_reason := ""
    max_players := 6
    min_players := 3 }

/-- A playing room in the middle of a reveal sequence of three 5s (one from
the middle pile, two from player 0's hand). -/
def wRevRoom : GameRoom :=
  { mode := GameMode.SIMPLE
    players := [{ pid := 0, hand := [{ id := 30, number := 9 }], trios := [], connected := true }]
    player_order := [0]
    middle_cards := [{ id := 10, number := 5 }]
    middle_face_up := updFace (fun _ => MidFace.down) 10 MidFace.up
    current_turn_index := 0
    revealed_this_turn :=
      [{ card := { id := 10, number := 5 }, source := RevealSource.middle, position := none },
       { card := { id := 20, number := 5 }, source := RevealSource.player 0,
         position := some "lowest" },
       { card := { id := 21, number := 5 }, source := RevealSource.player 0,
         position := some "lowest" }]
    state := Phase.playing
    winner := none
    winner_reason := ""
    max_players := 6
    min_players := 3 }

/-! ## General lemmas about the embedded operations -/

theorem sortHand_perm (l : List Card) : (sortHand l).Perm l :=
  List.perm_insertionSort cardLE l

theorem sortHand_length (l : List Card) : (sortHand l).length = l.length :=
  (sortHand_perm l).length_eq

theorem sortHand_sorted (l : List Card) : List.Sorted cardLE (sortHand l) :=
  List.sorted_insertionSort cardLE l

theorem mem_sortHand {c : Card} {l : List Card} : c ∈ sortHand l ↔ c ∈ l :=
  (sortHand_perm l).mem_iff

/-- Sequences of length below 2 get no decision (reversed-list phrasing). -/
theorem outcome_rev_short (ns : List Nat) (h : ns.reverse.length < 2) :
    check_reveal_outcome ns = Outcome.noDecision := by
  rw [check_reveal_outcome, if_pos]
  rw [← List.length_reverse]
  exact h

/-- The reveal-outcome function on a sequence whose reversal starts with
b, a (so b is the last and a the second-to-last revealed number). -/
theorem outcome_rev_cons (ns : List Nat) (b a : Nat) (t : List Nat)
    (hrev : ns.reverse = b :: a :: t) :
    check_reveal_outcome ns =
      if t ≠ [] ∧ b = a ∧ a = t.getD 0 0 then Outcome.trio
      else if b ≠ a then Outcome.fail
      else Outcome.continueTurn := by
  have hlen : ns.length = ns.reverse.length := (List.length_reverse ns).symm
  have h2 : ¬ ns.length < 2 := by
    rw [hlen, hrev]
    simp
  have hl3 : 3 ≤ ns.length ↔ t ≠ [] := by
    rw [hlen, hrev]
    cases t <;> simp
  have e0 : lastNth ns 0 = b := by rw [lastNth, hrev]; rfl
  have e1 : lastNth ns 1 = a := by rw [lastNth, hrev]; rfl
  have e2 : lastNth ns 2 = t.getD 0 0 := by rw [lastNth, hrev]; rfl
  rw [check_reveal_outcome, if_neg h2, e0, e1, e2]
  by_cases ht : t ≠ [] ∧ b = a ∧ a = t.getD 0 0
  · rw [if_pos ⟨hl3.mpr ht.1, ht.2⟩, if_pos ht]
  · rw [if_neg fun h => ht ⟨hl3.mp h.1, h.2⟩, if_neg ht]

/-- A list ends in the block [a, b] iff its reversal starts with b, a. -/
theorem append2_iff_reverse (ns l : List Nat) (a b : Nat) :
    ns = l ++ [a, b] ↔ ns.reverse = b :: a :: l.reverse := by
  constructor
  · rintro rfl
    simp
  · intro h
    have := congrArg List.reverse h
    simpa using this

/-- A list ends in the block [a, b, c] iff its reversal starts with c, b, a. -/
theorem append3_iff_reverse (ns l : List Nat) (a b c : Nat) :
    ns = l ++ [a, b, c] ↔ ns.reverse = c :: b :: a :: l.reverse := by
  constructor
  · rintro rfl
    simp
  · intro h
    have := congrArg List.reverse h
    simpa using this

/-- The outcome asks for no decision exactly on sequences shorter than 2. -/
theorem outcome_noDecision_iff (ns : List Nat) :
    check_reveal_outcome ns = Outcome.noDecision ↔ ns.length < 2 := by
  constructor
  · intro h
    by_contra hlen
    rw [check_reveal_outcome, if_neg hlen] at h
    split at h
    · exact absurd h (by decide)
    · split at h <;> exact absurd h (by decide)
  · intro h
    rw [check_reveal_outcome, if_pos h]

/-- The outcome is a trio exactly when the sequence ends in three equal
numbers. -/
theorem outcome_trio_iff (ns : List Nat) :
    check_reveal_outcome ns = Outcome.trio ↔ ∃ l a, ns = l ++ [a, a, a] := by
  rcases hrev : ns.reverse with _ | ⟨b, _ | ⟨a, t⟩⟩
  · rw [outcome_rev_short ns (by rw [hrev]; simp)]
    constructor
    · intro h
      exact absurd h (by decide)
    · rintro ⟨l, x, rfl⟩
      simp at hrev
  · rw [outcome_rev_short ns (by rw [hrev]; simp)]
    constructor
    · intro h
      exact absurd h (by decide)
    · rintro ⟨l, x, rfl⟩
      rw [List.reverse_append] at hrev
      have := congrArg List.length hrev
      simp at this
  · rw [outcome_rev_cons ns b a t hrev]
    constructor
    · intro h
      split at h
      · rename_i hc
        obtain ⟨ht, hba, hat⟩ := hc
        rcases t with _ | ⟨c, t'⟩
        · exact absurd rfl ht
        · have hac : a = c := by simpa using hat
          subst hba
          subst hac
          refine ⟨t'.reverse, b, ?_⟩
          rw [append3_iff_reverse, List.reverse_reverse, hrev]
      · split at h <;> exact absurd h (by decide)
    · rintro ⟨l, x, hx⟩
      rw [append3_iff_reverse, hrev] at hx
      injection hx with h1 hx
      injection hx with h2 hx
      subst h1
      subst h2
      subst hx
      rw [if_pos ⟨by simp, rfl, rfl⟩]

/-- The outcome is a fail exactly when the sequence ends in two different
numbers. -/
theorem outcome_fail_iff (ns : List Nat) :
    check_reveal_outcome ns = Outcome.fail ↔ ∃ l a b, ns = l ++ [a, b] ∧ a ≠ b := by
  rcases hrev : ns.reverse with _ | ⟨b, _ | ⟨a, t⟩⟩
  · rw [outcome_rev_short ns (by rw [hrev]; simp)]
    constructor
    · intro h
      exact absurd h (by decide)
    · rintro ⟨l, x, y, rfl, -⟩
      simp at hrev
  · rw [outcome_rev_short ns (by rw [hrev]; simp)]
    constructor
    · intro h
      exact absurd h (by decide)
    · rintro ⟨l, x, y, rfl, -⟩
      rw [List.reverse_append] at hrev
      have := congrArg List.length hrev
      simp at this
  · rw [outcome_rev_cons ns b a t hrev]
    constructor
    · intro h
      split at h
      · exact absurd h (by decide)
      · split at h
        · rename_i hba
          refine ⟨t.reverse, a, b, ?_, fun hab => hba (hab ▸ rfl)⟩
          rw [append2_iff_reverse, List.reverse_reverse, hrev]
        · exact absurd h (by decide)
    · rintro ⟨l, x, y, hx, hxy⟩
      rw [append2_iff_reverse, hrev] at hx
      injection hx with h1 hx
      injection hx with h2 hx
      subst h1
      subst h2
      rw [if_neg, if_pos]
      · exact fun h => hxy (h ▸ rfl)
      · rintro ⟨-, hba, -⟩
        exact hxy (hba ▸ rfl)

/-- The outcome is a continue exactly when the sequence ends in two equal
numbers but not in three equal numbers. -/
theorem outcome_continue_iff (ns : List Nat) :
    check_reveal_outcome ns = Outcome.continueTurn ↔
      (∃ l a, ns = l ++ [a, a]) ∧ ¬ ∃ l a, ns = l ++ [a, a, a] := by
  constructor
  · intro h
    have htrio : ¬ ∃ l a, ns = l ++ [a, a, a] := by
      intro hex
      rw [(outcome_trio_iff ns).mpr hex] at h
      exact absurd h (by decide)
    refine ⟨?_, htrio⟩
    rcases hrev : ns.reverse with _ | ⟨b, _ | ⟨a, t⟩⟩
    · rw [outcome_rev_short ns (by rw [hrev]; simp)] at h
      exact absurd h (by decide)
    · rw [outcome_rev_short ns (by rw [hrev]; simp)] at h
      exact absurd h (by decide)
    · rw [outcome_rev_cons ns b a t hrev] at h
      have hfail : check_reveal_outcome ns ≠ Outcome.fail := by
        rw [outcome_rev_cons ns b a t hrev, h]
        intro hc
        exact absurd hc (by decide)
      have hba : b = a := by
        by_contra hab
        rw [if_neg, if_pos hab] at h
        · exact absurd h (by decide)
        · rintro ⟨-, hba, -⟩
          exact hab hba
      subst hba
      exact ⟨t.reverse, b, by rw [append2_iff_reverse, List.reverse_reverse, hrev]⟩
  · rintro ⟨⟨l, a, rfl⟩, htrio⟩
    have hrev : (l ++ [a, a]).reverse = a :: a :: l.reverse := by simp
    rw [outcome_rev_cons _ a a l.reverse hrev, if_neg, if_neg (by simp)]
    rintro ⟨hne, -, hget⟩
    rcases hl : l.reverse with _ | ⟨c, t'⟩
    · exact hne hl
    · rw [hl] at hget
      have hac : a = c := by simpa using hget
      subst hac
      refine htrio ⟨t'.reverse, a, ?_⟩
      rw [append3_iff_reverse, List.reverse_reverse]
      simp [hl]

/-- If a pending reveal sequence turns into a trio on the next reveal, the
pending part had exactly 2 entries (so the whole sequence has 3): any longer
sequence would already have resolved as trio or fail earlier. -/
theorem pending_snoc_trio_len (ns : List Nat) (x : Nat) (hpend : seqPending ns)
    (htrio : check_reveal_outcome (ns ++ [x]) = Outcome.trio) : ns.length = 2 := by
  rw [outcome_trio_iff] at htrio
  obtain ⟨l, a, hl⟩ := htrio
  have h1 := congrArg List.reverse hl
  rw [List.reverse_append, List.reverse_append] at h1
  simp only [List.reverse_cons, List.reverse_nil, List.nil_append, List.cons_append,
    List.append_assoc] at h1
  injection h1 with hx h1
  have hns : ns.reverse = a :: a :: l.reverse := h1
  rcases hlr : l.reverse with _ | ⟨z, t'⟩
  · rw [hlr] at hns
    have := congrArg List.length hns
    simpa using this
  · rw [hlr] at hns
    have hns' : ns = t'.reverse ++ [z, a, a] := by
      have := congrArg List.reverse hns
      simpa using this
    have hlen : ns.length = t'.length + 3 := by
      have h := congrArg List.length hns
      simp at h
      omega
    by_cases hza : z = a
    · have htr : check_reveal_outcome ns = Outcome.trio := by
        rw [outcome_trio_iff]
        exact ⟨t'.reverse, a, by rw [hns', hza]⟩
      have := hpend ns.length le_rfl
      rw [List.take_length, htr] at this
      rcases this with h | h <;> exact absurd h (by decide)
    · have htake : ns.take (t'.reverse.length + 2) = t'.reverse ++ [z, a] := by
        rw [hns', List.take_append]
        rfl
      have hfail : check_reveal_outcome (ns.take (t'.reverse.length + 2)) = Outcome.fail := by
        rw [htake, outcome_fail_iff]
        exact ⟨t'.reverse, z, a, rfl, hza⟩
      have hk : t'.reverse.length + 2 ≤ ns.length := by
        rw [hlen, List.length_reverse]
        omega
      have := hpend (t'.reverse.length + 2) hk
      rw [hfail] at this
      rcases this with h | h <;> exact absurd h (by decide)

/-! ## C1: the outcome evaluator -/

/-- C1: for every reveal sequence the outcome evaluator decides, in rule
order: fewer than 2 entries gives no decision; a sequence ending in three
equal numbers is a trio; a sequence ending in two different numbers is a
fail; a sequence ending in two equal numbers that is not a trio is a
continue (the acting player keeps revealing).  In particular [5,5,5] is a
trio, [5,5,6] a fail after the third reveal, and [5,6] a fail after the
second. -/
theorem check_reveal_outcome_rules (ns : List Nat) :
    (check_reveal_outcome ns = Outcome.noDecision ↔ ns.length < 2) ∧
    (check_reveal_outcome ns = Outcome.trio ↔ ∃ l a, ns = l ++ [a, a, a]) ∧
    (check_reveal_outcome ns = Outcome.fail ↔ ∃ l a b, ns = l ++ [a, b] ∧ a ≠ b) ∧
    (check_reveal_outcome ns = Outcome.continueTurn ↔
      (∃ l a, ns = l ++ [a, a]) ∧ ¬ ∃ l a, ns = l ++ [a, a, a]) ∧
    check_reveal_outcome [5, 5, 5] = Outcome.trio ∧
    check_reveal_outcome [5, 5, 6] = Outcome.fail ∧
    check_reveal_outcome [5, 6] = Outcome.fail :=
  ⟨outcome_noDecision_iff ns, outcome_trio_iff ns, outcome_fail_iff ns,
   outcome_continue_iff ns, by decide, by decide, by decide⟩

/-! ## C7: the SPICY adjacency table -/

/-- Exhaustive check of the adjacency table over its whole domain. -/
theorem connections_bounded_check :
    ∀ n ∈ Finset.Icc 1 12, ∀ m ∈ Finset.Icc 1 12,
      ((m ∈ CONNECTIONS n) ↔ (m ≠ n ∧ ((m : Int) - (n : Int)).natAbs ≤ 2)) ∧
      ((m ∈ CONNECTIONS n) ↔ n ∈ CONNECTIONS m) := by
  decide

/-- C7: for numbers 1..12, membership in the adjacency table is exactly
being a different number at absolute distance at most 2 (truncated at the
1 and 12 boundaries), and the relation is symmetric. -/
theorem connections_distance_two (n m : Nat) (hn1 : 1 ≤ n) (hn2 : n ≤ 12)
    (hm1 : 1 ≤ m) (hm2 : m ≤ 12) :
    ((m ∈ CONNECTIONS n) ↔ (m ≠ n ∧ ((m : Int) - (n : Int)).natAbs ≤ 2)) ∧
    ((m ∈ CONNECTIONS n) ↔ n ∈ CONNECTIONS m) :=
  connections_bounded_check n (Finset.mem_Icc.mpr ⟨hn1, hn2⟩)
    m (Finset.mem_Icc.mpr ⟨hm1, hm2⟩)

/-- Witness for C7 at n = 1, m = 3. -/
theorem connections_distance_two_witness :
    ((3 ∈ CONNECTIONS 1) ↔ ((3 : Nat) ≠ 1 ∧ ((3 : Int) - (1 : Int)).natAbs ≤ 2)) ∧
    ((3 ∈ CONNECTIONS 1) ↔ 1 ∈ CONNECTIONS 3) :=
  connections_distance_two 1 3 (by decide) (by decide) (by decide) (by decide)

/-! ## C10: set_game_mode -/

/-- C10: on a waiting room, set_game_mode sets SPICY exactly when the
lowercased mode string is "spicy" and SIMPLE otherwise, emitting only the
mode_changed broadcast (no validation error); on a non-waiting room it does
nothing at all. -/
theorem set_game_mode_rules (room : GameRoom) (m : String) :
    (room.state = Phase.waiting →
      ((set_game_mode room m).1.mode = GameMode.SPICY ↔ pyLower m = "spicy") ∧
      ((set_game_mode room m).1.mode = GameMode.SIMPLE ↔ pyLower m ≠ "spicy") ∧
      (set_game_mode room m).2 = [Event.broadcastEv "mode_changed"] ∧
      (set_game_mode room m).1.players = room.players ∧
      (set_game_mode room m).1.state = room.state) ∧
    (room.state ≠ Phase.waiting → set_game_mode room m = (room, [])) := by
  constructor
  · intro hw
    rw [set_game_mode, if_neg (by simp [hw])]
    by_cases hs : pyLower m = "spicy"
    · rw [if_pos hs]
      exact ⟨by simp [hs], by simp [hs], rfl, rfl, rfl⟩
    · rw [if_neg hs]
      exact ⟨by simp [hs], by simp [hs], rfl, rfl, rfl⟩
  · intro hnw
    rw [set_game_mode, if_pos hnw]

/-- Witness for C10: an uppercase "SpIcY" sets SPICY on the fresh room, and
set_game_mode on the playing room roomC is a no-op. -/
theorem set_game_mode_rules_witness :
    (set_game_mode roomA "SpIcY").1.mode = GameMode.SPICY ∧
    set_game_mode roomC "spicy" = (roomC, []) :=
  ⟨((set_game_mode_rules roomA "SpIcY").1 rfl).1.mpr rfl,
   (set_game_mode_rules roomC "spicy").2 (by decide)⟩

/-! ## C9: rejected joins -/

/-- C9: joining a room that is full or no longer waiting fails with an
error sent only on the requester's socket, seats nobody, and leaves the
room (seat count included) completely unchanged. -/
theorem connect_reject_unchanged (room : GameRoom) (newPid : Nat)
    (h : room.max_players ≤ room.players.length ∨ room.state ≠ Phase.waiting) :
    (connect room newPid).1 = room ∧
    (connect room newPid).2.2 = none ∧
    (∃ msg, (connect room newPid).2.1 = [Event.errorToSocket msg]) := by
  by_cases hfull : room.max_players ≤ room.players.length
  · rw [connect, if_pos hfull]
    exact ⟨rfl, rfl, "Room is full", rfl⟩
  · have hst : room.state ≠ Phase.waiting := h.resolve_left hfull
    rw [connect, if_neg hfull, if_pos hst]
    exact ⟨rfl, rfl, "Game already in progress", rfl⟩

/-- Witness for C9 on the playing room roomC. -/
theorem connect_reject_unchanged_witness :
    (connect roomC 99).1 = roomC ∧
    (connect roomC 99).2.2 = none ∧
    (∃ msg, (connect roomC 99).2.1 = [Event.errorToSocket msg]) :=
  connect_reject_unchanged roomC 99 (Or.inr (by decide))

/-! ## C2: the win-condition evaluator -/

/-- The nested pair loop of the SPICY win check finds a connected pair
exactly when some ordered pair of entries (one strictly after the other) is
connected per the adjacency table. -/
theorem hasConnectedPair_iff (l : List Nat) :
    hasConnectedPair l = true ↔
      ∃ a b, List.Sublist [a, b] l ∧ b ∈ CONNECTIONS a := by
  induction l with
  | nil =>
    rw [hasConnectedPair]
    simp
  | cons n rest ih =>
    rw [hasConnectedPair, Bool.or_eq_true, ih]
    constructor
    · rintro (h | ⟨a, b, hs, hb⟩)
      · rw [List.any_eq_true] at h
        obtain ⟨m, hm, hmc⟩ := h
        exact ⟨n, m, List.cons_sublist_cons.mpr (List.singleton_sublist.mpr hm),
          by simpa using hmc⟩
      · exact ⟨a, b, hs.trans (List.sublist_cons_self n rest), hb⟩
    · rintro ⟨a, b, hs, hb⟩
      rcases List.cons_sublist_cons'.mp hs with h | ⟨rfl, h⟩
      · exact Or.inr ⟨a, b, h, hb⟩
      · refine Or.inl ?_
        rw [List.any_eq_true]
        exact ⟨b, List.singleton_sublist.mp h, by simpa using hb⟩

/-- C2: the win check, run for the capturing player, ends the game exactly
when that player holds an all-7 trio (any mode), or holds 3 or more trios in
SIMPLE mode, or holds 2 or more trios two of which carry connected numbers
in SPICY mode; on a win the room becomes finished with the capturing player
as winner and a matching reason, otherwise the room is left untouched. -/
theorem check_win_condition_rules (room : GameRoom) (pid : Nat) (q : PlayerSt)
    (hq : room.findPlayer pid = some q) :
    ((check_win_condition room pid).2.1 = true ↔
      ((∃ t ∈ q.trios, ∀ c ∈ t, c.number = 7) ∨
       (room.mode = GameMode.SIMPLE ∧ 3 ≤ q.trios.length) ∨
       (room.mode = GameMode.SPICY ∧ 2 ≤ q.trios.length ∧
         ∃ a b, List.Sublist [a, b] (q.trios.map trioNumber) ∧ b ∈ CONNECTIONS a))) ∧
    ((check_win_condition room pid).2.1 = true →
      (check_win_condition room pid).1.state = Phase.finished ∧
      (check_win_condition room pid).1.winner = some pid ∧
      (check_win_condition room pid).1.winner_reason ∈ ["7-trio", "3_trios", "connected_trios"]) ∧
    ((check_win_condition room pid).2.1 = false → (check_win_condition room pid).1 = room) := by
  have h7iff : (q.trios.any fun trio => trio.all fun c => c.number == 7) = true ↔
      ∃ t ∈ q.trios, ∀ c ∈ t, c.number = 7 := by
    simp [List.any_eq_true, List.all_eq_true]
  have hmodes : room.mode = GameMode.SIMPLE ∨ room.mode = GameMode.SPICY := by
    cases room.mode
    · exact Or.inl rfl
    · exact Or.inr rfl
  rw [check_win_condition, hq]
  dsimp only
  by_cases h7 : (q.trios.any fun trio => trio.all fun c => c.number == 7) = true
  · rw [if_pos h7]
    refine ⟨iff_of_true rfl (Or.inl (h7iff.mp h7)), fun _ => ⟨rfl, rfl, by simp⟩, ?_⟩
    intro h
    simp at h
  · rw [if_neg h7]
    have hno7 : ¬ ∃ t ∈ q.trios, ∀ c ∈ t, c.number = 7 := fun h => h7 (h7iff.mpr h)
    rcases hmodes with hmode | hmode
    · rw [if_pos hmode]
      by_cases h3 : 3 ≤ q.trios.length
      · rw [if_pos h3]
        refine ⟨iff_of_true rfl (Or.inr (Or.inl ⟨hmode, h3⟩)),
          fun _ => ⟨rfl, rfl, by simp⟩, ?_⟩
        intro h
        simp at h
      · rw [if_neg h3]
        refine ⟨iff_of_false (by simp) ?_, ?_, fun _ => rfl⟩
        · rintro (h | ⟨-, h⟩ | ⟨hsp, -, -⟩)
          · exact hno7 h
          · exact h3 h
          · rw [hmode] at hsp
            exact absurd hsp (by decide)
        · intro h
          simp at h
    · rw [if_neg (by rw [hmode]; decide)]
      by_cases h2 : 2 ≤ q.trios.length
      · rw [if_pos h2]
        by_cases hcp : hasConnectedPair (q.trios.map trioNumber) = true
        · rw [if_pos hcp]
          refine ⟨iff_of_true rfl
            (Or.inr (Or.inr ⟨hmode, h2, (hasConnectedPair_iff _).mp hcp⟩)),
            fun _ => ⟨rfl, rfl, by simp⟩, ?_⟩
          intro h
          simp at h
        · rw [if_neg hcp]
          refine ⟨iff_of_false (by simp) ?_, ?_, fun _ => rfl⟩
          · rintro (h | ⟨hsi, -⟩ | ⟨-, -, h⟩)
            · exact hno7 h
            · rw [hmode] at hsi
              exact absurd hsi (by decide)
            · exact hcp ((hasConnectedPair_iff _).mpr h)
          · intro h
            simp at h
      · rw [if_neg h2]
        refine ⟨iff_of_false (by simp) ?_, ?_, fun _ => rfl⟩
        · rintro (h | ⟨hsi, -⟩ | ⟨-, h, -⟩)
          · exact hno7 h
          · rw [hmode] at hsi
            exact absurd hsi (by decide)
          · exact h2 h
        · intro h
          simp at h

/-- Witness for C2: in the SPICY room the player with trios of 4s and 6s
(connected numbers) wins. -/
theorem check_win_condition_rules_witness :
    (check_win_condition wSpicyRoom 5).2.1 = true :=
  ((check_win_condition_rules wSpicyRoom 5 wTrioPlayer rfl).1).mpr
    (Or.inr (Or.inr ⟨rfl, by decide, 4, 6, by decide, by decide⟩))

/-! ## Player-dictionary update lemmas -/

/-- Looking up a pid after the in-place update of (possibly another) pid:
the found player is the updated image of the originally found player,
provided the update does not change pids. -/
theorem find?_pid_map_if (ps : List PlayerSt) (tgt upd : Nat) (f : PlayerSt → PlayerSt)
    (hf : ∀ p, (f p).pid = p.pid) :
    (ps.map (fun p => if p.pid = upd then f p else p)).find? (fun p => p.pid == tgt) =
      (ps.find? (fun p => p.pid == tgt)).map (fun q => if q.pid = upd then f q else q) := by
  induction ps with
  | nil => rfl
  | cons p ps ih =>
    have hhd : (if p.pid = upd then f p else p).pid = p.pid := by
      by_cases hp : p.pid = upd
      · rw [if_pos hp, hf]
      · rw [if_neg hp]
    simp only [List.map_cons, List.find?_cons]
    rw [hhd]
    cases hbeq : (p.pid == tgt) with
    | true => rfl
    | false => exact ih

/-! ## C5: trio completion -/

/-- Once a slot reads taken, later taken-markings keep it taken. -/
theorem markTaken_preserve_taken (l : List RevealedCard) : ∀ (face : Nat → MidFace) (j : Nat),
    face j = MidFace.taken → markTaken face l j = MidFace.taken := by
  induction l with
  | nil => exact fun face j h => h
  | cons r rs ih =>
    intro face j h
    cases hs : r.source with
    | middle =>
      rw [markTaken, hs]
      refine ih _ j ?_
      rw [updFace]
      by_cases hj : j = r.card.id
      · rw [if_pos hj]
      · rw [if_neg hj]
        exact h
    | player p =>
      rw [markTaken, hs]
      exact ih face j h

/-- The taken-marking loop of complete_trio marks every middle-origin entry
of the processed list as taken. -/
theorem markTaken_mem (l : List RevealedCard) : ∀ (face : Nat → MidFace), ∀ r ∈ l,
    r.source = RevealSource.middle → markTaken face l r.card.id = MidFace.taken := by
  induction l with
  | nil =>
    intro face r hr
    cases hr
  | cons r0 rs ih =>
    intro face r hr hmid
    rcases List.mem_cons.mp hr with rfl | hr'
    · rw [markTaken, hmid]
      exact markTaken_preserve_taken rs _ r.card.id (by rw [updFace, if_pos rfl])
    · cases hs : r0.source with
      | middle =>
        rw [markTaken, hs]
        exact ih _ r hr' hmid
      | player p =>
        rw [markTaken, hs]
        exact ih face r hr' hmid

/-- The win check never touches seating, hands, the middle pile, the reveal
sequence or the turn pointer — only phase, winner and reason. -/
theorem check_win_frame (room : GameRoom) (pid : Nat) :
    (check_win_condition room pid).1.players = room.players ∧
    (check_win_condition room pid).1.player_order = room.player_order ∧
    (check_win_condition room pid).1.middle_cards = room.middle_cards ∧
    (check_win_condition room pid).1.middle_face_up = room.middle_face_up ∧
    (check_win_condition room pid).1.current_turn_index = room.current_turn_index ∧
    (check_win_condition room pid).1.revealed_this_turn = room.revealed_this_turn ∧
    (check_win_condition room pid).1.mode = room.mode := by
  rw [check_win_condition]
  cases room.findPlayer pid
  · exact ⟨rfl, rfl, rfl, rfl, rfl, rfl, rfl⟩
  · dsimp only
    split_ifs <;> exact ⟨rfl, rfl, rfl, rfl, rfl, rfl, rfl⟩

/-- A defined current player forces a playing room with a fixed seating. -/
theorem current_player_id_props (room : GameRoom) (pid : Nat)
    (h : room.current_player_id = some pid) :
    room.player_order ≠ [] ∧ room.state = Phase.playing := by
  rw [GameRoom.current_player_id] at h
  by_cases hc : room.player_order ≠ [] ∧ room.state = Phase.playing
  · exact hc
  · rw [if_neg hc] at h
    cases h

/-- The room produced by complete_trio is the win check applied to the room
with the trio captured, the taken marks placed and the sequence cleared. -/
theorem complete_trio_unfold (room : GameRoom) (pid : Nat)
    (hcur : room.current_player_id = some pid) :
    (complete_trio room).1 = (check_win_condition
      { room.updatePlayer pid (fun p => { p with trios := p.trios ++
          [(lastN room.revealed_this_turn 3).map (fun r => r.card)] }) with
        middle_face_up := markTaken room.middle_face_up (lastN room.revealed_this_turn 3)
        revealed_this_turn := [] } pid).1 := by
  rw [complete_trio, hcur]
  dsimp only
  rw [apply_ite Prod.fst, ite_self]
  rfl

/-- C5: on a trio, the last 3 revealed cards are appended as one captured
trio to the acting player's list, middle-origin entries among them are
marked taken with the middle pile's indexing untouched, the reveal sequence
is cleared, and the turn index is unchanged — if the room is still playing
after the win check, the same seat is still the current player. -/
theorem complete_trio_effects (room : GameRoom) (pid : Nat) (q : PlayerSt)
    (hcur : room.current_player_id = some pid)
    (hq : room.findPlayer pid = some q) :
    (complete_trio room).1.findPlayer pid =
      some { q with trios := q.trios ++
        [(lastN room.revealed_this_turn 3).map (fun r => r.card)] } ∧
    (∀ r ∈ lastN room.revealed_this_turn 3, r.source = RevealSource.middle →
      (complete_trio room).1.middle_face_up r.card.id = MidFace.taken) ∧
    (complete_trio room).1.middle_cards = room.middle_cards ∧
    (complete_trio room).1.revealed_this_turn = [] ∧
    (complete_trio room).1.current_turn_index = room.current_turn_index ∧
    ((complete_trio room).1.state = Phase.playing →
      (complete_trio room).1.current_player_id = room.current_player_id) := by
  obtain ⟨hord, hplay⟩ := current_player_id_props room pid hcur
  rw [complete_trio_unfold room pid hcur]
  refine ⟨?_, ?_, ?_, ?_, ?_, ?_⟩
  · rw [GameRoom.findPlayer, (check_win_frame _ _).1]
    dsimp only [GameRoom.updatePlayer]
    rw [find?_pid_map_if room.players pid pid
      (fun p => { p with trios := p.trios ++
        [(lastN room.revealed_this_turn 3).map (fun r => r.card)] }) (fun p => rfl)]
    rw [GameRoom.findPlayer] at hq
    have hpq := List.find?_some hq
    rw [hq, Option.map_some', if_pos (beq_iff_eq.mp hpq)]
  · intro r hr hmid
    rw [(check_win_frame _ _).2.2.2.1]
    exact markTaken_mem _ _ r hr hmid
  · rw [(check_win_frame _ _).2.2.1]
    rfl
  · rw [(check_win_frame _ _).2.2.2.2.2.1]
  · rw [(check_win_frame _ _).2.2.2.2.1]
    rfl
  · intro hst
    rw [GameRoom.current_player_id, GameRoom.current_player_id,
      (check_win_frame _ _).2.1, (check_win_frame _ _).2.2.2.2.1]
    dsimp only [GameRoom.updatePlayer]
    rw [if_pos ⟨hord, hst⟩, if_pos ⟨hord, hplay⟩]

/-- Witness for C5 on the mid-reveal room wRevRoom. -/
theorem complete_trio_effects_witness :
    (complete_trio wRevRoom).1.middle_face_up 10 = MidFace.taken ∧
    (complete_trio wRevRoom).1.revealed_this_turn = [] ∧
    (complete_trio wRevRoom).1.current_turn_index = wRevRoom.current_turn_index :=
  ⟨(complete_trio_effects wRevRoom 0
      { pid := 0, hand := [{ id := 30, number := 9 }], trios := [], connected := true }
      rfl rfl).2.1
      { card := { id := 10, number := 5 }, source := RevealSource.middle, position := none }
      (by decide) rfl,
   (complete_trio_effects wRevRoom 0
      { pid := 0, hand := [{ id := 30, number := 9 }], trios := [], connected := true }
      rfl rfl).2.2.2.1,
   (complete_trio_effects wRevRoom 0
      { pid := 0, hand := [{ id := 30, number := 9 }], trios := [], connected := true }
      rfl rfl).2.2.2.2.1⟩

/-! ## C3: the fail-revert -/

/-- The pid of an updated player is unchanged by a pid-preserving update. -/
theorem map_pid_map_if (ps : List PlayerSt) (upd : Nat) (f : PlayerSt → PlayerSt)
    (hf : ∀ p, (f p).pid = p.pid) :
    (ps.map (fun p => if p.pid = upd then f p else p)).map (fun p => p.pid) =
      ps.map (fun p => p.pid) := by
  induction ps with
  | nil => rfl
  | cons p ps ih =>
    simp only [List.map_cons, ih]
    by_cases hp : p.pid = upd
    · rw [if_pos hp, hf]
    · rw [if_neg hp]

/-- One revert step never touches the middle pile's card list, the seating,
the turn pointer, the phase, the reveal sequence, or any pid. -/
theorem returnOne_frame (room : GameRoom) (r : RevealedCard) :
    (returnOne room r).middle_cards = room.middle_cards ∧
    (returnOne room r).player_order = room.player_order ∧
    (returnOne room r).current_turn_index = room.current_turn_index ∧
    (returnOne room r).state = room.state ∧
    (returnOne room r).revealed_this_turn = room.revealed_this_turn ∧
    (returnOne room r).players.map (fun p => p.pid) = room.players.map (fun p => p.pid) := by
  cases hs : r.source with
  | middle =>
    rw [returnOne, hs]
    exact ⟨rfl, rfl, rfl, rfl, rfl, rfl⟩
  | player pid =>
    rw [returnOne, hs]
    dsimp only
    cases hf : room.findPlayer pid
    · exact ⟨rfl, rfl, rfl, rfl, rfl, rfl⟩
    · dsimp only [GameRoom.updatePlayer]
      exact ⟨rfl, rfl, rfl, rfl, rfl, map_pid_map_if room.players pid _ (fun p => rfl)⟩

/-- Frame conditions for the whole revert loop. -/
theorem foldl_returnOne_frame (l : List RevealedCard) : ∀ (room : GameRoom),
    (l.foldl returnOne room).middle_cards = room.middle_cards ∧
    (l.foldl returnOne room).player_order = room.player_order ∧
    (l.foldl returnOne room).current_turn_index = room.current_turn_index ∧
    (l.foldl returnOne room).state = room.state ∧
    (l.foldl returnOne room).players.map (fun p => p.pid) =
      room.players.map (fun p => p.pid) := by
  induction l with
  | nil => exact fun room => ⟨rfl, rfl, rfl, rfl, rfl⟩
  | cons r rs ih =>
    intro room
    obtain ⟨h1, h2, h3, h4, h5⟩ := ih (returnOne room r)
    obtain ⟨g1, g2, g3, g4, -, g6⟩ := returnOne_frame room r
    exact ⟨h1.trans g1, h2.trans g2, h3.trans g3, h4.trans g4, h5.trans g6⟩

/-- A face-down slot stays face down through the revert loop. -/
theorem foldl_returnOne_face_down (l : List RevealedCard) : ∀ (room : GameRoom) (j : Nat),
    room.middle_face_up j = MidFace.down →
    (l.foldl returnOne room).middle_face_up j = MidFace.down := by
  induction l with
  | nil => exact fun room j h => h
  | cons r rs ih =>
    intro room j h
    refine ih (returnOne room r) j ?_
    cases hs : r.source with
    | middle =>
      rw [returnOne, hs]
      dsimp only
      rw [updFace]
      by_cases hj : j = r.card.id
      · rw [if_pos hj]
      · rw [if_neg hj]
        exact h
    | player pid =>
      rw [returnOne, hs]
      dsimp only
      cases hf : room.findPlayer pid
      · exact h
      · exact h

/-- Every middle-origin entry of the processed list ends face down. -/
theorem foldl_returnOne_face_entries (l : List RevealedCard) : ∀ (room : GameRoom),
    ∀ r ∈ l, r.source = RevealSource.middle →
      (l.foldl returnOne room).middle_face_up r.card.id = MidFace.down := by
  induction l with
  | nil =>
    intro room r hr
    cases hr
  | cons r0 rs ih =>
    intro room r hr hmid
    rcases List.mem_cons.mp hr with rfl | hr'
    · refine foldl_returnOne_face_down rs (returnOne room r) r.card.id ?_
      rw [returnOne, hmid]
      dsimp only
      rw [updFace, if_pos rfl]
    · exact ih (returnOne room r0) r hr' hmid

/-- A found player stays findable through one revert step, its hand only
grows, and sortedness of its hand is preserved. -/
theorem returnOne_hand_preserved (room : GameRoom) (r0 : RevealedCard) (p : Nat)
    (q : PlayerSt) (hq : room.findPlayer p = some q) :
    ∃ q', (returnOne room r0).findPlayer p = some q' ∧
      (∀ c, c ∈ q.hand → c ∈ q'.hand) ∧
      (List.Sorted cardLE q.hand → List.Sorted cardLE q'.hand) := by
  cases hs : r0.source with
  | middle =>
    rw [returnOne, hs]
    exact ⟨q, hq, fun c hc => hc, fun h => h⟩
  | player tpid =>
    rw [returnOne, hs]
    dsimp only
    cases hf : room.findPlayer tpid with
    | none => exact ⟨q, hq, fun c hc => hc, fun h => h⟩
    | some tq =>
      dsimp only
      refine ⟨if q.pid = tpid then { q with hand := sortHand (q.hand ++ [r0.card]) } else q,
        ?_, ?_, ?_⟩
      · rw [GameRoom.findPlayer]
        dsimp only [GameRoom.updatePlayer]
        rw [find?_pid_map_if room.players p tpid
          (fun pl => { pl with hand := sortHand (pl.hand ++ [r0.card]) }) (fun pl => rfl)]
        rw [GameRoom.findPlayer] at hq
        rw [hq, Option.map_some']
      · intro c hc
        by_cases hqp : q.pid = tpid
        · rw [if_pos hqp]
          exact mem_sortHand.mpr (List.mem_append_left _ hc)
        · rw [if_neg hqp]
          exact hc
      · intro hsort
        by_cases hqp : q.pid = tpid
        · rw [if_pos hqp]
          exact sortHand_sorted _
        · rw [if_neg hqp]
          exact hsort

/-- Fold version of the previous lemma. -/
theorem foldl_returnOne_hand_preserved (l : List RevealedCard) : ∀ (room : GameRoom)
    (p : Nat) (q : PlayerSt), room.findPlayer p = some q →
    ∃ q', (l.foldl returnOne room).findPlayer p = some q' ∧
      (∀ c, c ∈ q.hand → c ∈ q'.hand) ∧
      (List.Sorted cardLE q.hand → List.Sorted cardLE q'.hand) := by
  induction l with
  | nil => exact fun room p q hq => ⟨q, hq, fun c hc => hc, fun h => h⟩
  | cons r0 rs ih =>
    intro room p q hq
    obtain ⟨q1, hq1, hmem1, hsort1⟩ := returnOne_hand_preserved room r0 p q hq
    obtain ⟨q2, hq2, hmem2, hsort2⟩ := ih (returnOne room r0) p q1 hq1
    exact ⟨q2, hq2, fun c hc => hmem2 c (hmem1 c hc), fun h => hsort2 (hsort1 h)⟩

/-- After the revert loop, every hand-origin entry of the processed list is
in its origin seat's hand, and that hand is sorted. -/
theorem foldl_returnOne_entries (l : List RevealedCard) : ∀ (room : GameRoom),
    (∀ r ∈ l, ∀ p, r.source = RevealSource.player p → (room.findPlayer p).isSome) →
    ∀ r ∈ l, ∀ p, r.source = RevealSource.player p →
      ∃ q', (l.foldl returnOne room).findPlayer p = some q' ∧ r.card ∈ q'.hand ∧
        List.Sorted cardLE q'.hand := by
  induction l with
  | nil =>
    intro room _ r hr
    cases hr
  | cons r0 rs ih =>
    intro room hex r hr p hp
    rcases List.mem_cons.mp hr with rfl | hr'
    · obtain ⟨tq, htq⟩ :=
        Option.isSome_iff_exists.mp (hex r (List.mem_cons_self r rs) p hp)
      have hstep : (returnOne room r).findPlayer p =
          some { tq with hand := sortHand (tq.hand ++ [r.card]) } := by
        rw [returnOne, hp]
        dsimp only
        rw [htq]
        dsimp only
        rw [GameRoom.findPlayer]
        dsimp only [GameRoom.updatePlayer]
        rw [find?_pid_map_if room.players p p
          (fun pl => { pl with hand := sortHand (pl.hand ++ [r.card]) }) (fun pl => rfl)]
        rw [GameRoom.findPlayer] at htq
        have hpq := List.find?_some htq
        rw [htq, Option.map_some', if_pos (beq_iff_eq.mp hpq)]
      obtain ⟨q', hq', hmem, hsort⟩ :=
        foldl_returnOne_hand_preserved rs (returnOne room r) p _ hstep
      refine ⟨q', hq', hmem _ ?_, hsort (sortHand_sorted _)⟩
      exact mem_sortHand.mpr (List.mem_append_right _ (List.mem_singleton.mpr rfl))
    · have hex' : ∀ rr ∈ rs, ∀ pp, rr.source = RevealSource.player pp →
          ((returnOne room r0).findPlayer pp).isSome := by
        intro rr hrr pp hpp
        obtain ⟨qq, hqq⟩ :=
          Option.isSome_iff_exists.mp (hex rr (List.mem_cons_of_mem r0 hrr) pp hpp)
        obtain ⟨q1, hq1, -, -⟩ := returnOne_hand_preserved room r0 pp qq hqq
        rw [hq1]
        rfl
      exact ih (returnOne room r0) hex' r hr' p hp

/-- C3: after a fail, the delayed revert puts every middle-origin entry face
down at its original slot (the pile's indexing untouched), puts every
hand-origin entry back into its origin seat's hand re-sorted ascending,
clears the reveal sequence and advances the turn to
(index + 1) mod seat count. -/
theorem fail_turn_reverts (room : GameRoom)
    (hex : ∀ r ∈ room.revealed_this_turn, ∀ p, r.source = RevealSource.player p →
      (room.findPlayer p).isSome) :
    (fail_turn room).1.middle_cards = room.middle_cards ∧
    (∀ r ∈ room.revealed_this_turn, r.source = RevealSource.middle →
      (fail_turn room).1.middle_face_up r.card.id = MidFace.down) ∧
    (∀ r ∈ room.revealed_this_turn, ∀ p, r.source = RevealSource.player p →
      ∃ q, (fail_turn room).1.findPlayer p = some q ∧ r.card ∈ q.hand ∧
        List.Sorted cardLE q.hand) ∧
    (fail_turn room).1.revealed_this_turn = [] ∧
    (fail_turn room).1.current_turn_index =
      (room.current_turn_index + 1) % room.player_order.length := by
  have hfst : (fail_turn room).1 =
      { room.revealed_this_turn.foldl returnOne room with
        current_turn_index :=
          ((room.revealed_this_turn.foldl returnOne room).current_turn_index + 1) %
            (room.revealed_this_turn.foldl returnOne room).player_order.length
        revealed_this_turn := [] } := rfl
  obtain ⟨hmc, hpo, hci, -, hpid⟩ := foldl_returnOne_frame room.revealed_this_turn room
  rw [hfst]
  refine ⟨hmc, ?_, ?_, rfl, by rw [hci, hpo]⟩
  · intro r hr hmid
    exact foldl_returnOne_face_entries room.revealed_this_turn room r hr hmid
  · intro r hr p hp
    exact foldl_returnOne_entries room.revealed_this_turn room hex r hr p hp

/-- The hand-origin entries of wRevRoom all come from the seated player 0. -/
theorem wRevRoom_hex : ∀ r ∈ wRevRoom.revealed_this_turn, ∀ p,
    r.source = RevealSource.player p → (wRevRoom.findPlayer p).isSome := by
  intro r hr p hp
  fin_cases hr
  · simp at hp
  · injection hp with h
    subst h
    rfl
  · injection hp with h
    subst h
    rfl

/-- Witness for C3 on the mid-reveal room wRevRoom. -/
theorem fail_turn_reverts_witness :
    (fail_turn wRevRoom).1.middle_cards = wRevRoom.middle_cards ∧
    (fail_turn wRevRoom).1.middle_face_up 10 = MidFace.down ∧
    (fail_turn wRevRoom).1.revealed_this_turn = [] ∧
    (fail_turn wRevRoom).1.current_turn_index = 0 :=
  ⟨(fail_turn_reverts wRevRoom wRevRoom_hex).1,
   (fail_turn_reverts wRevRoom wRevRoom_hex).2.1
     { card := { id := 10, number := 5 }, source := RevealSource.middle, position := none }
     (by decide) rfl,
   (fail_turn_reverts wRevRoom wRevRoom_hex).2.2.2.1,
   (fail_turn_reverts wRevRoom wRevRoom_hex).2.2.2.2⟩

/-! ## C8: the deal -/

/-- The dealing loop hands out one segment per player. -/
theorem dealHands_snd (n : Nat) (ps : List PlayerSt) : ∀ (deck : List Card),
    (dealHands n ps deck).2 = deck.drop (n * ps.length) := by
  induction ps with
  | nil =>
    intro deck
    rw [dealHands]
    simp
  | cons q ps ih =>
    intro deck
    rw [dealHands]
    dsimp only
    rw [ih (deck.drop n), List.drop_drop, List.length_cons]
    congr 1
    ring

/-- Dealing preserves the seating pids. -/
theorem dealHands_map_pid (n : Nat) (ps : List PlayerSt) : ∀ (deck : List Card),
    (dealHands n ps deck).1.map (fun p => p.pid) = ps.map (fun p => p.pid) := by
  induction ps with
  | nil =>
    intro deck
    rfl
  | cons q ps ih =>
    intro deck
    rw [dealHands]
    dsimp only [List.map_cons]
    rw [ih (deck.drop n)]

/-- Dealing preserves every player's captured trios. -/
theorem dealHands_map_trios (n : Nat) (ps : List PlayerSt) : ∀ (deck : List Card),
    (dealHands n ps deck).1.map (fun p => p.trios) = ps.map (fun p => p.trios) := by
  induction ps with
  | nil =>
    intro deck
    rfl
  | cons q ps ih =>
    intro deck
    rw [dealHands]
    dsimp only [List.map_cons]
    rw [ih (deck.drop n)]

/-- With enough cards in the deck, every dealt hand has exactly n cards. -/
theorem dealHands_hand_length (n : Nat) (ps : List PlayerSt) : ∀ (deck : List Card),
    n * ps.length ≤ deck.length → ∀ p ∈ (dealHands n ps deck).1, p.hand.length = n := by
  induction ps with
  | nil =>
    intro deck _ p hp
    cases hp
  | cons q ps ih =>
    intro deck h p hp
    rw [dealHands] at hp
    dsimp only at hp
    have hn1 : n * ps.length + n ≤ deck.length := by
      rw [List.length_cons, Nat.mul_succ] at h
      exact h
    rcases List.mem_cons.mp hp with rfl | hp'
    · show (sortHand (deck.take n)).length = n
      rw [sortHand_length, List.length_take]
      omega
    · refine ih (deck.drop n) ?_ p hp'
      rw [List.length_drop]
      omega

/-- Every dealt hand is sorted ascending. -/
theorem dealHands_hand_sorted (n : Nat) (ps : List PlayerSt) : ∀ (deck : List Card),
    ∀ p ∈ (dealHands n ps deck).1, List.Sorted cardLE p.hand := by
  induction ps with
  | nil =>
    intro deck p hp
    cases hp
  | cons q ps ih =>
    intro deck p hp
    rw [dealHands] at hp
    dsimp only at hp
    rcases List.mem_cons.mp hp with rfl | hp'
    · exact sortHand_sorted _
    · exact ih (deck.drop n) p hp'

/-- C8: the deal table is 3 to (9,9), 4 to (7,8), 5 to (6,6), 6 to (5,6)
with every other count defaulting to (5,6); on a successful start with a
36-card deck, every seated player receives exactly the table's hand size
sorted ascending, and the middle receives exactly the table's middle size,
all face down. -/
theorem deal_table_and_start (room : GameRoom) (req : Nat) (deck : List Card)
    (order : List Nat) (hmin : room.min_players = 3) (h3 : 3 ≤ room.players.length)
    (h6 : room.players.length ≤ 6) (hdeck : deck.length = 36) :
    get_cards_per_player 3 = (9, 9) ∧ get_cards_per_player 4 = (7, 8) ∧
    get_cards_per_player 5 = (6, 6) ∧ get_cards_per_player 6 = (5, 6) ∧
    (∀ k, k < 3 ∨ 6 < k → get_cards_per_player k = (5, 6)) ∧
    (∀ p ∈ (start_game room req deck order).1.players,
      p.hand.length = (get_cards_per_player room.players.length).1 ∧
      List.Sorted cardLE p.hand) ∧
    (start_game room req deck order).1.middle_cards.length =
      (get_cards_per_player room.players.length).2 ∧
    (∀ c ∈ (start_game room req deck order).1.middle_cards,
      (start_game room req deck order).1.middle_face_up c.id = MidFace.down) := by
  have hguard : ¬ room.players.length < room.min_players := by
    rw [hmin]
    omega
  have hdefault : ∀ k, k < 3 ∨ 6 < k → get_cards_per_player k = (5, 6) := by
    intro k hk
    rcases hk with hk | hk
    · interval_cases k <;> rfl
    · obtain ⟨m, rfl⟩ : ∃ m, k = m + 7 := ⟨k - 7, by omega⟩
      rfl
  rw [start_game, if_neg hguard]
  dsimp only
  have hmul : (get_cards_per_player room.players.length).1 * room.players.length ≤
      deck.length ∧
      (get_cards_per_player room.players.length).1 * room.players.length +
        (get_cards_per_player room.players.length).2 = 36 := by
    have hL : room.players.length = 3 ∨ room.players.length = 4 ∨
        room.players.length = 5 ∨ room.players.length = 6 := by omega
    rcases hL with h | h | h | h <;>
      rw [h] <;> exact ⟨by rw [hdeck]; decide, by decide⟩
  refine ⟨rfl, rfl, rfl, rfl, hdefault, ?_, ?_, ?_⟩
  · intro p hp
    exact ⟨dealHands_hand_length _ room.players deck hmul.1 p hp,
      dealHands_hand_sorted _ room.players deck p hp⟩
  · rw [List.length_take, dealHands_snd, List.length_drop]
    omega
  · intro c _
    rfl

/-- Witness for C8: the 3-player start of the concrete trace deals a
middle pile of the table's middle size. -/
theorem deal_table_and_start_witness :
    (start_game roomB 0 trioDeck [0, 1, 2]).1.middle_cards.length =
      (get_cards_per_player roomB.players.length).2 :=
  (deal_table_and_start roomB 0 trioDeck [0, 1, 2] rfl (by decide) (by decide)
    (by decide)).2.2.2.2.2.2.1

/-! ## C4: phase handling (corrected) -/

/-- Counterexample to C4 as stated: start_game carries no phase guard, so a
start against the playing room roomF re-deals the room (player hands
change) and emits no error at all; and a reveal against the waiting room
roomA is dropped silently, with no privately reported phase error. -/
theorem phase_error_claim_cex :
    roomF.state = Phase.playing ∧
    (start_game roomF 0 trioDeck [0, 1, 2]).2.all (fun e => !e.isError) = true ∧
    (start_game roomF 0 trioDeck [0, 1, 2]).1.players ≠ roomF.players ∧
    roomA.state ≠ Phase.playing ∧
    reveal_from_middle roomA 0 0 = (roomA, []) := by
  refine ⟨rfl, rfl, ?_, by decide, rfl⟩
  decide

/-- Any your_turn notification list is error-free. -/
theorem yourTurnEvent_not_error (o : Option Nat) : ∀ e ∈ yourTurnEvent o,
    e.isError = false := by
  intro e he
  cases o with
  | none => cases he
  | some cur =>
    rcases List.mem_singleton.mp he with rfl
    rfl

/-- C4 amended: a reveal action against a non-playing room is silently
ignored — the room is unchanged but no error is reported; and starting a
game is not phase-guarded at all — against any room with at least the
minimum number of seats (playing or finished included) it emits no error,
re-deals the room, resets the turn index and forces the playing phase,
while every seat's previously captured trios are retained. -/
theorem phase_handling_amended :
    (∀ (room : GameRoom) (pid cid : Nat), room.state ≠ Phase.playing →
      reveal_from_middle room pid cid = (room, [])) ∧
    (∀ (room : GameRoom) (pid tgt : Nat) (pos : String), room.state ≠ Phase.playing →
      reveal_from_player room pid tgt pos = (room, [])) ∧
    (∀ (room : GameRoom) (req : Nat) (deck : List Card) (order : List Nat),
      room.min_players ≤ room.players.length →
      (start_game room req deck order).2.all (fun e => !e.isError) = true ∧
      (start_game room req deck order).1.state = Phase.playing ∧
      (start_game room req deck order).1.current_turn_index = 0 ∧
      (start_game room req deck order).1.players.map (fun p => p.trios) =
        room.players.map (fun p => p.trios)) := by
  refine ⟨?_, ?_, ?_⟩
  · intro room pid cid h
    rw [reveal_from_middle, if_pos h]
  · intro room pid tgt pos h
    rw [reveal_from_player, if_pos h]
  · intro room req deck order hmin
    rw [start_game, if_neg (by omega)]
    dsimp only
    refine ⟨?_, rfl, rfl, dealHands_map_trios _ room.players deck⟩
    rw [List.all_eq_true]
    intro e he
    rcases List.mem_append.mp he with he | he
    · rcases List.mem_append.mp he with he | he
      · rcases List.mem_append.mp he with he | he
        · rcases List.mem_singleton.mp he with rfl
          rfl
        · obtain ⟨x, -, rfl⟩ := List.mem_map.mp he
          rfl
      · rw [yourTurnEvent_not_error _ e he]
        rfl
    · rcases List.mem_singleton.mp he with rfl
      rfl

/-- Witness for the amended C4: a reveal against the waiting roomA is a
silent no-op, and the restart against the playing roomF lands in the
playing phase (re-dealt). -/
theorem phase_handling_amended_witness :
    reveal_from_middle roomA 0 0 = (roomA, []) ∧
    (start_game roomF 0 trioDeck [0, 1, 2]).1.state = Phase.playing :=
  ⟨phase_handling_amended.1 roomA 0 0 (by decide),
   (phase_handling_amended.2.2 roomF 0 trioDeck [0, 1, 2] (by decide)).2.1⟩

/-! ## Counting lemmas for the conservation invariant -/

theorem middleFaceDownCount_eq (room : GameRoom) :
    middleFaceDownCount room = countDownL room.middle_cards room.middle_face_up := rfl

/-- Two face assignments showing the same slots down count the same. -/
theorem countDownL_congrB (l : List Card) (f g : Nat → MidFace)
    (h : ∀ c ∈ l, (f c.id = MidFace.down) ↔ (g c.id = MidFace.down)) :
    countDownL l f = countDownL l g :=
  congrArg List.length (List.filter_congr (fun c hc => decide_eq_decide.mpr (h c hc)))

theorem countDownL_congr (l : List Card) (f g : Nat → MidFace)
    (h : ∀ c ∈ l, f c.id = g c.id) : countDownL l f = countDownL l g :=
  countDownL_congrB l f g (fun c hc => by rw [h c hc])

theorem countDownL_cons (c : Card) (cs : List Card) (f : Nat → MidFace) :
    countDownL (c :: cs) f =
      (if f c.id = MidFace.down then 1 else 0) + countDownL cs f := by
  by_cases h : f c.id = MidFace.down <;>
    simp [countDownL, List.filter_cons, h, Nat.add_comm]

/-- Flipping one present slot changes the face-down count by the difference
of the down-indicators of the old and new values. -/
theorem countDownL_updFace (l : List Card) (f : Nat → MidFace) (i : Nat) (v : MidFace)
    (hnd : (l.map (fun c => c.id)).Nodup) (hmem : i ∈ l.map (fun c => c.id)) :
    countDownL l (updFace f i v) + (if f i = MidFace.down then 1 else 0) =
      countDownL l f + (if v = MidFace.down then 1 else 0) := by
  induction l with
  | nil => simp at hmem
  | cons c cs ih =>
    rw [List.map_cons, List.nodup_cons] at hnd
    rw [List.map_cons, List.mem_cons] at hmem
    by_cases hci : c.id = i
    · have hics : ∀ x ∈ cs, x.id ≠ i := by
        intro x hx hxi
        exact hnd.1 (hci ▸ hxi ▸ List.mem_map_of_mem _ hx)
      have htail : countDownL cs (updFace f i v) = countDownL cs f :=
        countDownL_congr cs _ f (fun x hx => by rw [updFace, if_neg (hics x hx)])
      rw [countDownL_cons, countDownL_cons, htail, hci, updFace, if_pos rfl]
      by_cases h1 : f i = MidFace.down <;> by_cases h2 : v = MidFace.down <;>
        simp [h1, h2] <;> omega
    · have hmem' : i ∈ cs.map (fun c => c.id) := by
        rcases hmem with h | h
        · exact absurd h.symm hci
        · exact h
      rw [countDownL_cons, countDownL_cons, updFace]
      rw [if_neg hci]
      have := ih hnd.2 hmem'
      omega

theorem countDownL_const_down (l : List Card) :
    countDownL l (fun _ => MidFace.down) = l.length := by
  simp [countDownL]

/-- find? on a player list, unfolded one step for the pid predicate. -/
theorem find?_pid_cons (x : PlayerSt) (l : List PlayerSt) (tgt : Nat) :
    (x :: l).find? (fun p => p.pid == tgt) =
      if x.pid = tgt then some x else l.find? (fun p => p.pid == tgt) := by
  rw [List.find?_cons]
  by_cases h : x.pid = tgt
  · rw [if_pos h, beq_iff_eq.mpr h]
  · rw [if_neg h, beq_eq_false_iff_ne.mpr h]

/-- A pid present in the seating is found, and the found player carries it. -/
theorem find?_pid_of_mem (ps : List PlayerSt) (a : Nat)
    (h : a ∈ ps.map (fun p => p.pid)) :
    ∃ q, ps.find? (fun p => p.pid == a) = some q ∧ q.pid = a := by
  induction ps with
  | nil => simp at h
  | cons p cs ih =>
    rw [find?_pid_cons]
    by_cases hp : p.pid = a
    · exact ⟨p, by rw [if_pos hp], hp⟩
    · rw [if_neg hp]
      rw [List.map_cons, List.mem_cons] at h
      rcases h with h | h
      · exact absurd h.symm hp
      · exact ih h

/-- An update that touches no listed player is the identity. -/
theorem map_if_id (ps : List PlayerSt) (upd : Nat) (f : PlayerSt → PlayerSt)
    (h : ∀ x ∈ ps, x.pid ≠ upd) :
    ps.map (fun p => if p.pid = upd then f p else p) = ps := by
  induction ps with
  | nil => rfl
  | cons p cs ih =>
    rw [List.map_cons, if_neg (h p (List.mem_cons_self p cs)),
      ih (fun x hx => h x (List.mem_cons_of_mem p hx))]

/-- Updating the (unique) player under a pid changes a summed statistic by
exactly the change on that player. -/
theorem sum_g_map_if (ps : List PlayerSt) (upd : Nat) (f : PlayerSt → PlayerSt)
    (g : PlayerSt → Nat) (hnd : (ps.map (fun p => p.pid)).Nodup) (q : PlayerSt)
    (hq : ps.find? (fun p => p.pid == upd) = some q) :
    ((ps.map (fun p => if p.pid = upd then f p else p)).map g).sum + g q =
      (ps.map g).sum + g (f q) := by
  induction ps with
  | nil => cases hq
  | cons p cs ih =>
    rw [List.map_cons, List.nodup_cons] at hnd
    rw [find?_pid_cons] at hq
    by_cases hp : p.pid = upd
    · rw [if_pos hp] at hq
      injection hq with hq
      subst hq
      have hcs : ∀ x ∈ cs, x.pid ≠ upd := by
        intro x hx hxu
        exact hnd.1 (hp ▸ hxu ▸ List.mem_map_of_mem _ hx)
      rw [List.map_cons, if_pos hp, map_if_id cs upd f hcs]
      simp only [List.map_cons, List.sum_cons]
      omega
    · rw [if_neg hp] at hq
      have := ih hnd.2 hq
      rw [List.map_cons, if_neg hp]
      simp only [List.map_cons, List.sum_cons]
      omega

/-- When every listed player scores the same, the sum is count times it. -/
theorem sum_map_of_forall_eq (ps : List PlayerSt) (g : PlayerSt → Nat) (c : Nat)
    (h : ∀ p ∈ ps, g p = c) : (ps.map g).sum = ps.length * c := by
  induction ps with
  | nil => simp
  | cons p cs ih =>
    rw [List.map_cons, List.sum_cons, h p (List.mem_cons_self p cs),
      ih (fun x hx => h x (List.mem_cons_of_mem p hx)), List.length_cons]
    ring

/-- Removing the first card with a present id shrinks the hand by one. -/
theorem removeFirstById_length (l : List Card) (i : Nat) (h : ∃ c ∈ l, c.id = i) :
    (removeFirstById l i).length + 1 = l.length := by
  induction l with
  | nil => simp at h
  | cons c cs ih =>
    rw [removeFirstById]
    by_cases hc : c.id = i
    · rw [if_pos hc, List.length_cons]
    · rw [if_neg hc, List.length_cons, List.length_cons, ← ih]
      obtain ⟨x, hx, hxi⟩ := h
      rcases List.mem_cons.mp hx with rfl | hx'
      · exact absurd hxi hc
      · exact ⟨x, hx', hxi⟩

/-- The unshuffled deck's ids are 0..35. -/
theorem trioDeck_ids : trioDeck.map (fun c => c.id) = List.range 36 := by
  rw [trioDeck, List.map_map]
  exact List.map_id' _

/-- Any shuffle of the deck has duplicate-free ids. -/
theorem perm_deck_ids_nodup (deck : List Card) (h : deck.Perm trioDeck) :
    (deck.map (fun c => c.id)).Nodup := by
  rw [(h.map (fun c => c.id)).nodup_iff, trioDeck_ids]
  exact List.nodup_range 36

/-! ## Invariant preservation, easy operations -/

/-- cardCount only looks at players, the middle pile and its faces. -/
theorem cardCount_congr (r1 r2 : GameRoom)
    (hp : r1.players = r2.players) (hm : r1.middle_cards = r2.middle_cards)
    (hf : ∀ c ∈ r2.middle_cards, r1.middle_face_up c.id = r2.middle_face_up c.id) :
    cardCount r1 = cardCount r2 := by
  rw [cardCount, cardCount, handSum, handSum, trioSum, trioSum, hp,
    middleFaceDownCount_eq, middleFaceDownCount_eq, hm,
    countDownL_congr r2.middle_cards r1.middle_face_up r2.middle_face_up hf]

/-- A fresh room satisfies the invariant. -/
theorem Inv_create (mode : String) : Inv (create_room mode) := by
  refine ⟨⟨rfl, rfl, List.nodup_nil, ?_, ?_, ?_, ?_, ?_, ?_, ?_⟩, ?_⟩
  · intro _
    exact ⟨fun p hp => absurd hp (List.not_mem_nil p), rfl, Nat.zero_le 6⟩
  · intro h
    exact absurd rfl h
  · intro h
    exact absurd rfl h
  · intro h
    exact absurd rfl h
  · intro h
    exact absurd rfl h
  · intro h
    exact absurd rfl h
  · intro h
    cases h
  · intro h
    exact absurd rfl h

/-- Joining preserves the invariant when the generated pid is fresh. -/
theorem Inv_connect (room : GameRoom) (pid : Nat) (hInv : Inv room)
    (hfresh : pid ∉ pids room) : Inv (connect room pid).1 := by
  obtain ⟨hc, hpend⟩ := hInv
  rw [connect]
  by_cases hfull : room.max_players ≤ room.players.length
  · rw [if_pos hfull]
    exact ⟨hc, hpend⟩
  · rw [if_neg hfull]
    by_cases hst : room.state ≠ Phase.waiting
    · rw [if_pos hst]
      exact ⟨hc, hpend⟩
    · rw [if_neg hst]
      push_neg at hst
      dsimp only
      refine ⟨⟨hc.maxP, hc.minP, ?_, ?_, ?_, ?_, ?_, ?_, ?_, ?_⟩, ?_⟩
      · show ((room.players ++
          [({ pid := pid, hand := [], trios := [], connected := true } : PlayerSt)]).map
            (fun p => p.pid)).Nodup
        rw [List.map_append, List.nodup_append]
        refine ⟨hc.pidsNodup, List.nodup_singleton pid, ?_⟩
        intro x hx hx1
        rcases List.mem_singleton.mp hx1 with rfl
        exact hfresh hx
      · intro _
        obtain ⟨hhands, hrev, hlen⟩ := hc.waitingClean hst
        refine ⟨?_, hrev, ?_⟩
        · intro p hp
          rcases List.mem_append.mp hp with hp | hp
          · exact hhands p hp
          · rcases List.mem_singleton.mp hp with rfl
            exact ⟨rfl, rfl⟩
        · show (room.players ++
            [({ pid := pid, hand := [], trios := [], connected := true } : PlayerSt)]).length ≤ 6
          have hlt : room.players.length < 6 := by
            rw [hc.maxP] at hfull
            omega
          simp only [List.length_append, List.length_singleton]
          omega
      · intro h
        exact absurd hst h
      · intro h
        exact absurd hst h
      · intro h
        exact absurd hst h
      · intro h
        exact absurd hst h
      · intro h
        exact absurd hst h
      · intro h
        have h' : room.state = Phase.playing := h
        rw [hst] at h'
        cases h'
      · intro h
        exact absurd hst h

/-- Leaving preserves the invariant. -/
theorem Inv_disconnect (room : GameRoom) (pid : Nat) (hInv : Inv room) :
    Inv (disconnect room pid) := by
  obtain ⟨hc, hpend⟩ := hInv
  rw [disconnect]
  dsimp only
  have hpids : (room.players.map (fun p =>
      if p.pid = pid then { p with connected := false } else p)).map (fun p => p.pid) =
      room.players.map (fun p => p.pid) :=
    map_pid_map_if room.players pid _ (fun p => rfl)
  by_cases hw : room.state = Phase.waiting
  · rw [if_pos hw]
    refine ⟨⟨hc.maxP, hc.minP, ?_, ?_, ?_, ?_, ?_, ?_, ?_, ?_⟩, ?_⟩
    · show ((( room.players.map (fun p =>
        if p.pid = pid then { p with connected := false } else p)).filter
          (fun p => ¬ p.pid == pid)).map (fun p => p.pid)).Nodup
      refine List.Nodup.sublist (List.Sublist.map _ (List.filter_sublist _)) ?_
      rw [hpids]
      exact hc.pidsNodup
    · intro _
      obtain ⟨hhands, hrev, hlen⟩ := hc.waitingClean hw
      refine ⟨?_, hrev, ?_⟩
      · intro p hp
        have hp' := List.mem_of_mem_filter hp
        obtain ⟨x, hx, rfl⟩ := List.mem_map.mp hp'
        by_cases hxx : x.pid = pid
        · rw [if_pos hxx]
          exact hhands x hx
        · rw [if_neg hxx]
          exact hhands x hx
      · calc ((room.players.map (fun p =>
            if p.pid = pid then { p with connected := false } else p)).filter
              (fun p => ¬ p.pid == pid)).length
            ≤ (room.players.map (fun p =>
              if p.pid = pid then { p with connected := false } else p)).length :=
              List.length_filter_le _ _
          _ = room.players.length := List.length_map _ _
          _ ≤ 6 := (hc.waitingClean hw).2.2
    · intro h
      exact absurd hw h
    · intro h
      exact absurd hw h
    · intro h
      exact absurd hw h
    · intro h
      exact absurd hw h
    · intro h
      exact absurd hw h
    · intro h
      have h' : room.state = Phase.playing := h
      rw [hw] at h'
      cases h'
    · intro h
      exact absurd hw h
  · rw [if_neg hw]
    have hhand : ∀ p : PlayerSt,
        (if p.pid = pid then { p with connected := false } else p).hand = p.hand := by
      intro p
      by_cases hp : p.pid = pid
      · rw [if_pos hp]
      · rw [if_neg hp]
    have htrios : ∀ p : PlayerSt,
        (if p.pid = pid then { p with connected := false } else p).trios = p.trios := by
      intro p
      by_cases hp : p.pid = pid
      · rw [if_pos hp]
      · rw [if_neg hp]
    have hsum : ∀ g : PlayerSt → Nat, (∀ q : PlayerSt,
        g (if q.pid = pid then { q with connected := false } else q) = g q) →
        ((room.players.map (fun p =>
          if p.pid = pid then { p with connected := false } else p)).map g).sum =
          (room.players.map g).sum := by
      intro g hg
      rw [List.map_map]
      exact congrArg List.sum (List.map_congr_left (fun q _ => hg q))
    have hcount : cardCount { room with players := room.players.map (fun p =>
        if p.pid = pid then { p with connected := false } else p) } = cardCount room := by
      rw [cardCount, cardCount, handSum, handSum, trioSum, trioSum,
        middleFaceDownCount_eq, middleFaceDownCount_eq]
      dsimp only
      rw [hsum (fun p => p.hand.length) (fun q => by dsimp only; rw [hhand q]),
        hsum (fun p => p.trios.length) (fun q => by dsimp only; rw [htrios q])]
    refine ⟨⟨hc.maxP, hc.minP, ?_, ?_, ?_, hc.midNodup, hc.revMidUp, hc.revMidNodup, ?_, ?_⟩,
      hpend⟩
    · show ((room.players.map (fun p =>
        if p.pid = pid then { p with connected := false } else p)).map
          (fun p => p.pid)).Nodup
      rw [hpids]
      exact hc.pidsNodup
    · intro h
      exact absurd h hw
    · intro h
      rw [hcount]
      exact hc.counting h
    · intro h
      intro r hr q hq
      show q ∈ (room.players.map (fun p =>
        if p.pid = pid then { p with connected := false } else p)).map (fun p => p.pid)
      rw [hpids]
      exact hc.revPlayerMem h r hr q hq
    · intro h
      obtain ⟨h1, h2⟩ := hc.orderOk h
      refine ⟨h1, ?_⟩
      intro x hx
      show x ∈ (room.players.map (fun p =>
        if p.pid = pid then { p with connected := false } else p)).map (fun p => p.pid)
      rw [hpids]
      exact h2 x hx

/-- Changing the mode preserves the invariant. -/
theorem Inv_set_mode (room : GameRoom) (m : String) (hInv : Inv room) :
    Inv (set_game_mode room m).1 := by
  obtain ⟨hc, hpend⟩ := hInv
  rw [set_game_mode]
  by_cases hst : room.state ≠ Phase.waiting
  · rw [if_pos hst]
    exact ⟨hc, hpend⟩
  · rw [if_neg hst]
    push_neg at hst
    dsimp only
    refine ⟨⟨hc.maxP, hc.minP, hc.pidsNodup, ?_, ?_, ?_, ?_, ?_, ?_, ?_⟩, ?_⟩
    · intro _
      exact hc.waitingClean hst
    · intro h
      exact absurd hst h
    · intro h
      exact absurd hst h
    · intro h
      exact absurd hst h
    · intro h
      exact absurd hst h
    · intro h
      exact absurd hst h
    · intro h
      have h' : room.state = Phase.playing := h
      rw [hst] at h'
      cases h'
    · intro h
      exact absurd hst h

/-! ## Invariant establishment by the deal -/

/-- A room with no pending reveals trivially satisfies pendingness. -/
theorem seqPending_of_rev_nil (room : GameRoom) (h : room.revealed_this_turn = []) :
    seqPending (revealNumbers room) := by
  intro k hk
  left
  rw [revealNumbers, h] at hk ⊢
  simp at hk
  subst hk
  rfl

/-- Dealing preserves the number of seats. -/
theorem dealHands_length (n : Nat) (ps : List PlayerSt) : ∀ (deck : List Card),
    (dealHands n ps deck).1.length = ps.length := by
  induction ps with
  | nil =>
    intro deck
    rfl
  | cons q ps ih =>
    intro deck
    rw [dealHands]
    dsimp only [List.length_cons]
    rw [ih (deck.drop n)]

/-- Dealing does not change the summed trio counts. -/
theorem dealHands_trioSum (n : Nat) (ps : List PlayerSt) : ∀ (deck : List Card),
    ((dealHands n ps deck).1.map (fun p => p.trios.length)).sum =
      (ps.map (fun p => p.trios.length)).sum := by
  induction ps with
  | nil =>
    intro deck
    rfl
  | cons q ps ih =>
    intro deck
    rw [dealHands]
    dsimp only [List.map_cons, List.sum_cons]
    rw [ih (deck.drop n)]

/-- A start from a waiting seated room establishes the invariant. -/
theorem Inv_start (room : GameRoom) (req : Nat) (deck : List Card) (order : List Nat)
    (hInv : Inv room) (hw : room.state = Phase.waiting) (hdeck : deck.Perm trioDeck)
    (horder : order.Perm (pids room)) : Inv (start_game room req deck order).1 := by
  obtain ⟨hc, hpend⟩ := hInv
  by_cases hguard : room.players.length < room.min_players
  · rw [start_game, if_pos hguard]
    exact ⟨hc, hpend⟩
  · obtain ⟨hhands, hrev, hlen6⟩ := hc.waitingClean hw
    have hlen3 : 3 ≤ room.players.length := by
      rw [hc.minP] at hguard
      omega
    have hdl : deck.length = 36 := by
      rw [hdeck.length_eq]
      rfl
    have hhm : (get_cards_per_player room.players.length).1 * room.players.length +
        (get_cards_per_player room.players.length).2 = 36 ∧
        (get_cards_per_player room.players.length).1 * room.players.length ≤ deck.length := by
      have hcase : room.players.length = 3 ∨ room.players.length = 4 ∨
          room.players.length = 5 ∨ room.players.length = 6 := by omega
      rcases hcase with h | h | h | h <;> rw [h] <;>
        exact ⟨by decide, by rw [hdl]; decide⟩
    have hP : (start_game room req deck order).1.players =
        (dealHands (get_cards_per_player room.players.length).1 room.players deck).1 := by
      rw [start_game, if_neg hguard]
    have hM : (start_game room req deck order).1.middle_cards =
        (deck.drop ((get_cards_per_player room.players.length).1 * room.players.length)).take
          (get_cards_per_player room.players.length).2 := by
      rw [start_game, if_neg hguard]
      dsimp only
      rw [dealHands_snd]
    have hF : (start_game room req deck order).1.middle_face_up = fun _ => MidFace.down := by
      rw [start_game, if_neg hguard]
    have hS : (start_game room req deck order).1.state = Phase.playing := by
      rw [start_game, if_neg hguard]
    have hO : (start_game room req deck order).1.player_order = order := by
      rw [start_game, if_neg hguard]
    have hR : (start_game room req deck order).1.revealed_this_turn = [] := by
      rw [start_game, if_neg hguard]
      exact hrev
    have hMax : (start_game room req deck order).1.max_players = room.max_players := by
      rw [start_game, if_neg hguard]
    have hMin : (start_game room req deck order).1.min_players = room.min_players := by
      rw [start_game, if_neg hguard]
    have hPids : pids (start_game room req deck order).1 = pids room := by
      rw [pids, pids, hP, dealHands_map_pid]
    refine ⟨⟨?_, ?_, ?_, ?_, ?_, ?_, ?_, ?_, ?_, ?_⟩, ?_⟩
    · rw [hMax]
      exact hc.maxP
    · rw [hMin]
      exact hc.minP
    · rw [show pids (start_game room req deck order).1 =
        (pids room) from hPids]
      exact hc.pidsNodup
    · intro h
      rw [hS] at h
      cases h
    · intro _
      rw [cardCount, handSum, trioSum, middleFaceDownCount_eq, hP, hM, hF, hR]
      rw [dealHands_trioSum, sum_map_of_forall_eq room.players (fun p => p.trios.length) 0
        (fun p hp => by dsimp only; rw [(hhands p hp).2]; rfl)]
      rw [sum_map_of_forall_eq _ (fun p => p.hand.length)
        (get_cards_per_player room.players.length).1
        (fun p hp => dealHands_hand_length _ room.players deck hhm.2 p hp)]
      rw [dealHands_length, countDownL_const_down, List.length_take, List.length_drop]
      have h36 := hhm.1
      have hle := hhm.2
      rw [hdl] at hle ⊢
      rw [Nat.mul_comm room.players.length (get_cards_per_player room.players.length).1]
      have hmin : (get_cards_per_player room.players.length).2 ⊓
          (36 - (get_cards_per_player room.players.length).1 * room.players.length) =
          (get_cards_per_player room.players.length).2 :=
        min_eq_left (by omega)
      rw [hmin]
      simp only [Nat.mul_zero, Nat.add_zero, List.length_nil]
      omega
    · intro _
      rw [middleIds, hM]
      refine List.Nodup.sublist (List.Sublist.map _
        ((List.take_sublist _ _).trans (List.drop_sublist _ _))) ?_
      exact perm_deck_ids_nodup deck hdeck
    · intro _ r hr
      rw [hR] at hr
      cases hr
    · intro _
      rw [hR]
      exact List.nodup_nil
    · intro _ r hr
      rw [hR] at hr
      cases hr
    · intro _
      refine ⟨?_, ?_⟩
      · have : order.length = (pids room).length := horder.length_eq
        have : 0 < order.length := by
          rw [this, pids, List.length_map]
          omega
        rw [hO]
        exact List.ne_nil_of_length_pos this
      · intro x hx
        rw [hO] at hx
        rw [hPids]
        exact horder.mem_iff.mp hx
    · intro _
      exact seqPending_of_rev_nil _ hR

/-! ## Invariant preservation along the fail-revert -/

theorem midSourceIds_cons_middle (r : RevealedCard) (rs : List RevealedCard)
    (h : r.source = RevealSource.middle) :
    midSourceIds (r :: rs) = r.card.id :: midSourceIds rs := by
  rw [midSourceIds, List.filterMap_cons, h]
  rfl

theorem midSourceIds_cons_player (r : RevealedCard) (rs : List RevealedCard) (p : Nat)
    (h : r.source = RevealSource.player p) :
    midSourceIds (r :: rs) = midSourceIds rs := by
  rw [midSourceIds, List.filterMap_cons, h]
  rfl

theorem mem_midSourceIds (rs : List RevealedCard) (r : RevealedCard) (hr : r ∈ rs)
    (hm : r.source = RevealSource.middle) : r.card.id ∈ midSourceIds rs := by
  rw [midSourceIds]
  exact List.mem_filterMap.mpr ⟨r, hr, by rw [hm]⟩

/-- One revert step keeps the revert preconditions for the remaining entries
and returns exactly one card to the count. -/
theorem RevOk_returnOne (room : GameRoom) (r0 : RevealedCard) (rs : List RevealedCard)
    (h : RevOk room (r0 :: rs)) :
    RevOk (returnOne room r0) rs ∧ cardCount (returnOne room r0) = cardCount room + 1 := by
  obtain ⟨hup, hnd, hpm, hpids, hmids⟩ := h
  cases hs : r0.source with
  | middle =>
    rw [returnOne, hs]
    dsimp only
    obtain ⟨hidmem, hidup⟩ := hup r0 (List.mem_cons_self r0 rs) hs
    rw [midSourceIds_cons_middle r0 rs hs, List.nodup_cons] at hnd
    constructor
    · refine ⟨?_, hnd.2, ?_, hpids, hmids⟩
      · intro r hr hrm
        obtain ⟨hm1, hm2⟩ := hup r (List.mem_cons_of_mem r0 hr) hrm
        refine ⟨hm1, ?_⟩
        show updFace room.middle_face_up r0.card.id MidFace.down r.card.id = MidFace.up
        rw [updFace, if_neg, hm2]
        intro hcc
        exact hnd.1 (hcc ▸ mem_midSourceIds rs r hr hrm)
      · exact fun r hr p hp => hpm r (List.mem_cons_of_mem r0 hr) p hp
    · rw [cardCount, cardCount, middleFaceDownCount_eq, middleFaceDownCount_eq]
      show handSum room + 3 * trioSum room +
          countDownL room.middle_cards
            (updFace room.middle_face_up r0.card.id MidFace.down) =
        handSum room + 3 * trioSum room +
          countDownL room.middle_cards room.middle_face_up + 1
      have hcd := countDownL_updFace room.middle_cards room.middle_face_up r0.card.id
        MidFace.down hmids hidmem
      rw [hidup, if_neg (show ¬ (MidFace.up = MidFace.down) by decide), if_pos rfl] at hcd
      omega
  | player tp =>
    rw [returnOne, hs]
    dsimp only
    have hpmem : tp ∈ pids room := hpm r0 (List.mem_cons_self r0 rs) tp hs
    obtain ⟨q, hfq, hqpid⟩ := find?_pid_of_mem room.players tp hpmem
    rw [show room.findPlayer tp = some q from hfq]
    dsimp only
    rw [midSourceIds_cons_player r0 rs tp hs] at hnd
    have hpids' : ((room.players.map (fun pl =>
        if pl.pid = tp then { pl with hand := sortHand (pl.hand ++ [r0.card]) } else pl)).map
          (fun p => p.pid)) = room.players.map (fun p => p.pid) :=
      map_pid_map_if room.players tp _ (fun pl => rfl)
    constructor
    · refine ⟨?_, hnd, ?_, ?_, hmids⟩
      · intro r hr hrm
        exact hup r (List.mem_cons_of_mem r0 hr) hrm
      · intro r hr p hp
        show p ∈ (room.players.map (fun pl =>
          if pl.pid = tp then { pl with hand := sortHand (pl.hand ++ [r0.card]) } else pl)).map
            (fun p => p.pid)
        rw [hpids']
        exact hpm r (List.mem_cons_of_mem r0 hr) p hp
      · show ((room.players.map (fun pl =>
          if pl.pid = tp then { pl with hand := sortHand (pl.hand ++ [r0.card]) } else pl)).map
            (fun p => p.pid)).Nodup
        rw [hpids']
        exact hpids
    · have e1 := sum_g_map_if room.players tp
        (fun pl => { pl with hand := sortHand (pl.hand ++ [r0.card]) })
        (fun pl => pl.hand.length) hpids q hfq
      have e2 := sum_g_map_if room.players tp
        (fun pl => { pl with hand := sortHand (pl.hand ++ [r0.card]) })
        (fun pl => pl.trios.length) hpids q hfq
      dsimp only at e1 e2
      rw [sortHand_length, List.length_append, List.length_singleton] at e1
      rw [cardCount, cardCount, middleFaceDownCount_eq, middleFaceDownCount_eq]
      show ((room.players.map (fun pl =>
          if pl.pid = tp then { pl with hand := sortHand (pl.hand ++ [r0.card]) } else pl)).map
            (fun pl => pl.hand.length)).sum + 3 * ((room.players.map (fun pl =>
          if pl.pid = tp then { pl with hand := sortHand (pl.hand ++ [r0.card]) } else pl)).map
            (fun pl => pl.trios.length)).sum +
          countDownL room.middle_cards room.middle_face_up =
        (room.players.map (fun pl => pl.hand.length)).sum +
          3 * (room.players.map (fun pl => pl.trios.length)).sum +
          countDownL room.middle_cards room.middle_face_up + 1
      omega

/-- The whole revert loop restores exactly one card per entry. -/
theorem RevOk_foldl_count (l : List RevealedCard) : ∀ (room : GameRoom), RevOk room l →
    cardCount (l.foldl returnOne room) = cardCount room + l.length := by
  induction l with
  | nil =>
    intro room _
    rfl
  | cons r0 rs ih =>
    intro room hok
    obtain ⟨hok', hcnt⟩ := RevOk_returnOne room r0 rs hok
    rw [List.foldl_cons, ih (returnOne room r0) hok', hcnt, List.length_cons]
    omega

/-- Marking face-up slots as taken never changes the face-down count. -/
theorem countDownL_markTaken (l : List RevealedCard) : ∀ (cards : List Card)
    (f : Nat → MidFace),
    (∀ r ∈ l, r.source = RevealSource.middle → f r.card.id = MidFace.up) →
    (midSourceIds l).Nodup →
    countDownL cards (markTaken f l) = countDownL cards f := by
  induction l with
  | nil =>
    intro cards f _ _
    rfl
  | cons r0 rs ih =>
    intro cards f hup hnd
    cases hs : r0.source with
    | middle =>
      rw [markTaken, hs]
      rw [midSourceIds_cons_middle r0 rs hs, List.nodup_cons] at hnd
      have hr0 := hup r0 (List.mem_cons_self r0 rs) hs
      have hstep : countDownL cards (updFace f r0.card.id MidFace.taken) =
          countDownL cards f := by
        refine countDownL_congrB cards _ f (fun c _ => ?_)
        rw [updFace]
        by_cases hc : c.id = r0.card.id
        · rw [if_pos hc, hc, hr0]
          constructor
          · intro hcc
            exact absurd hcc (by decide)
          · intro hcc
            exact absurd hcc (by decide)
        · rw [if_neg hc]
      rw [ih cards _ ?_ hnd.2, hstep]
      intro r hr hrm
      rw [updFace, if_neg]
      · exact hup r (List.mem_cons_of_mem r0 hr) hrm
      · intro hcc
        exact hnd.1 (hcc ▸ mem_midSourceIds rs r hr hrm)
    | player p =>
      rw [markTaken, hs]
      rw [midSourceIds_cons_player r0 rs p hs] at hnd
      exact ih cards f (fun r hr hrm => hup r (List.mem_cons_of_mem r0 hr) hrm) hnd

/-- The win check never changes room capacity bounds. -/
theorem check_win_frame2 (room : GameRoom) (pid : Nat) :
    (check_win_condition room pid).1.max_players = room.max_players ∧
    (check_win_condition room pid).1.min_players = room.min_players := by
  rw [check_win_condition]
  cases room.findPlayer pid
  · exact ⟨rfl, rfl⟩
  · dsimp only
    split_ifs <;> exact ⟨rfl, rfl⟩

/-- The win check leaves the phase alone or moves it to finished. -/
theorem check_win_state (room : GameRoom) (pid : Nat) :
    (check_win_condition room pid).1.state = room.state ∨
    (check_win_condition room pid).1.state = Phase.finished := by
  rw [check_win_condition]
  cases room.findPlayer pid
  · exact Or.inl rfl
  · dsimp only
    split_ifs
    · exact Or.inr rfl
    · exact Or.inr rfl
    · exact Or.inl rfl
    · exact Or.inr rfl
    · exact Or.inl rfl
    · exact Or.inl rfl

/-- The win check preserves the invariant of a started room. -/
theorem Inv_check_win (room : GameRoom) (pid : Nat) (hnw : room.state ≠ Phase.waiting)
    (hInv : Inv room) : Inv (check_win_condition room pid).1 := by
  obtain ⟨hc, hpend⟩ := hInv
  obtain ⟨hp, ho, hm, hf, hi, hrv, -⟩ := check_win_frame room pid
  obtain ⟨hmax, hmin⟩ := check_win_frame2 room pid
  have hnw' : (check_win_condition room pid).1.state ≠ Phase.waiting := by
    rcases check_win_state room pid with h | h
    · rw [h]
      exact hnw
    · rw [h]
      intro hcc
      exact absurd hcc (by decide)
  have hcard : cardCount (check_win_condition room pid).1 = cardCount room :=
    cardCount_congr _ room hp hm (fun c _ => by rw [hf])
  have hpids2 : pids (check_win_condition room pid).1 = pids room := by
    rw [pids, pids, hp]
  refine ⟨⟨?_, ?_, ?_, ?_, ?_, ?_, ?_, ?_, ?_, ?_⟩, ?_⟩
  · rw [hmax]
    exact hc.maxP
  · rw [hmin]
    exact hc.minP
  · rw [hpids2]
    exact hc.pidsNodup
  · intro h
    exact absurd h hnw'
  · intro _
    rw [hcard, hrv]
    exact hc.counting hnw
  · intro _
    rw [middleIds, hm]
    exact hc.midNodup hnw
  · intro _ r hr hrm
    rw [hrv] at hr
    rw [middleIds, hm, hf]
    exact hc.revMidUp hnw r hr hrm
  · intro _
    rw [hrv]
    exact hc.revMidNodup hnw
  · intro _ r hr p hpp
    rw [hrv] at hr
    rw [hpids2]
    exact hc.revPlayerMem hnw r hr p hpp
  · intro h
    have hst : room.state = Phase.playing := by
      rcases check_win_state room pid with h2 | h2
      · rw [h2] at h
        exact h
      · rw [h2] at h
        exact absurd h (by decide)
    obtain ⟨h1, h2⟩ := hc.orderOk hst
    rw [ho, hpids2]
    exact ⟨h1, h2⟩
  · intro _
    rw [revealNumbers, hrv]
    exact hpend hnw

/-- The revert loop never changes room capacity bounds. -/
theorem foldl_returnOne_maxmin (l : List RevealedCard) : ∀ (room : GameRoom),
    (l.foldl returnOne room).max_players = room.max_players ∧
    (l.foldl returnOne room).min_players = room.min_players := by
  induction l with
  | nil => exact fun room => ⟨rfl, rfl⟩
  | cons r rs ih =>
    intro room
    obtain ⟨h1, h2⟩ := ih (returnOne room r)
    have hr : (returnOne room r).max_players = room.max_players ∧
        (returnOne room r).min_players = room.min_players := by
      cases hs : r.source with
      | middle =>
        rw [returnOne, hs]
        exact ⟨rfl, rfl⟩
      | player p =>
        rw [returnOne, hs]
        dsimp only
        cases room.findPlayer p
        · exact ⟨rfl, rfl⟩
        · exact ⟨rfl, rfl⟩
    exact ⟨h1.trans hr.1, h2.trans hr.2⟩

/-- A fail in a playing room preserves the invariant. -/
theorem Inv_fail_turn (room : GameRoom) (hplay : room.state = Phase.playing)
    (hc : InvCore room) : Inv (fail_turn room).1 := by
  have hnw : room.state ≠ Phase.waiting := by
    rw [hplay]
    intro hcc
    exact absurd hcc (by decide)
  have hok : RevOk room room.revealed_this_turn :=
    ⟨hc.revMidUp hnw, hc.revMidNodup hnw, hc.revPlayerMem hnw, hc.pidsNodup, hc.midNodup hnw⟩
  have hcount := RevOk_foldl_count room.revealed_this_turn room hok
  obtain ⟨hmc, hpo, hci, hst, hpid⟩ := foldl_returnOne_frame room.revealed_this_turn room
  obtain ⟨hmax, hmin⟩ := foldl_returnOne_maxmin room.revealed_this_turn room
  have hfst : (fail_turn room).1 =
      { room.revealed_this_turn.foldl returnOne room with
        current_turn_index :=
          ((room.revealed_this_turn.foldl returnOne room).current_turn_index + 1) %
            (room.revealed_this_turn.foldl returnOne room).player_order.length
        revealed_this_turn := [] } := rfl
  rw [hfst]
  refine ⟨⟨?_, ?_, ?_, ?_, ?_, ?_, ?_, ?_, ?_, ?_⟩, ?_⟩
  · exact hmax.trans hc.maxP
  · exact hmin.trans hc.minP
  · show ((room.revealed_this_turn.foldl returnOne room).players.map (fun p => p.pid)).Nodup
    rw [hpid]
    exact hc.pidsNodup
  · intro h
    have h' : (room.revealed_this_turn.foldl returnOne room).state = Phase.waiting := h
    rw [hst, hplay] at h'
    cases h'
  · intro _
    show cardCount (room.revealed_this_turn.foldl returnOne room) + ([] : List RevealedCard).length = 36
    rw [hcount, List.length_nil, Nat.add_zero]
    exact hc.counting hnw
  · intro _
    show ((room.revealed_this_turn.foldl returnOne room).middle_cards.map (fun c => c.id)).Nodup
    rw [hmc]
    exact hc.midNodup hnw
  · intro _ r hr
    cases hr
  · intro _
    exact List.nodup_nil
  · intro _ r hr
    cases hr
  · intro _
    obtain ⟨h1, h2⟩ := hc.orderOk hplay
    constructor
    · show (room.revealed_this_turn.foldl returnOne room).player_order ≠ []
      rw [hpo]
      exact h1
    · intro x hx
      have hx' : x ∈ room.player_order := by
        rw [show (({ room.revealed_this_turn.foldl returnOne room with
          current_turn_index := _, revealed_this_turn := [] } : GameRoom)).player_order =
          room.player_order from hpo] at hx
        exact hx
      show x ∈ ((room.revealed_this_turn.foldl returnOne room).players.map (fun p => p.pid))
      rw [hpid]
      exact h2 x hx'
  · intro _
    refine seqPending_of_rev_nil _ rfl

theorem midSourceIds_append (l1 l2 : List RevealedCard) :
    midSourceIds (l1 ++ l2) = midSourceIds l1 ++ midSourceIds l2 := by
  rw [midSourceIds, midSourceIds, midSourceIds, List.filterMap_append]

theorem midSourceIds_mem_inv (l : List RevealedCard) (i : Nat) (h : i ∈ midSourceIds l) :
    ∃ r ∈ l, r.source = RevealSource.middle ∧ r.card.id = i := by
  rw [midSourceIds] at h
  obtain ⟨r, hr, hf⟩ := List.mem_filterMap.mp h
  cases hs : r.source with
  | middle =>
    rw [hs] at hf
    injection hf with hf
    exact ⟨r, hr, hs, hf⟩
  | player p =>
    rw [hs] at hf
    cases hf

theorem mem_of_getLast?_eq (l : List Card) (c : Card) (h : l.getLast? = some c) : c ∈ l := by
  rcases l with _ | ⟨x, xs⟩
  · simp at h
  · exact List.mem_of_mem_getLast? (by simp [h])

/-- A reveal sequence whose proper prefixes are all pending resolves as a
trio only at length exactly 3. -/
theorem trio_len_of_pending (ns : List Nat)
    (hpend : ∀ k, k < ns.length →
      check_reveal_outcome (ns.take k) = Outcome.noDecision ∨
      check_reveal_outcome (ns.take k) = Outcome.continueTurn)
    (htrio : check_reveal_outcome ns = Outcome.trio) : ns.length = 3 := by
  have hne : ns ≠ [] := by
    obtain ⟨l, a, hl⟩ := (outcome_trio_iff ns).mp htrio
    rw [hl]
    simp
  have h0 : 0 < ns.length := List.length_pos.mpr hne
  have hdl : ns.dropLast.length = ns.length - 1 := List.length_dropLast ns
  have hpend' : seqPending ns.dropLast := by
    intro k hk
    rw [hdl] at hk
    have htk : ns.dropLast.take k = ns.take k := by
      rw [List.dropLast_eq_take, List.take_take, min_eq_left (by omega)]
    rw [htk]
    exact hpend k (by omega)
  have h2 := pending_snoc_trio_len ns.dropLast (ns.getLast hne) hpend'
    (by rw [List.dropLast_append_getLast hne]; exact htrio)
  omega

/-- Completing a trio from a playing room with a three-card sequence
preserves the invariant. -/
theorem Inv_complete_trio (room : GameRoom) (hplay : room.state = Phase.playing)
    (hc : InvCore room) (hlen : room.revealed_this_turn.length = 3) :
    Inv (complete_trio room).1 := by
  have hnw : room.state ≠ Phase.waiting := by
    rw [hplay]
    intro hcc
    exact absurd hcc (by decide)
  obtain ⟨hord, hordmem⟩ := hc.orderOk hplay
  have hlt : room.current_turn_index % room.player_order.length < room.player_order.length :=
    Nat.mod_lt _ (List.length_pos.mpr hord)
  obtain ⟨pid, hpid_get⟩ : ∃ pid, room.player_order.get?
      (room.current_turn_index % room.player_order.length) = some pid :=
    ⟨_, List.get?_eq_get hlt⟩
  have hpid_mem : pid ∈ room.player_order := by
    rw [List.get?_eq_get hlt] at hpid_get
    injection hpid_get with h
    rw [← h]
    exact List.get_mem _ _ _
  have hpid_pids : pid ∈ pids room := hordmem pid hpid_mem
  have hcur : room.current_player_id = some pid := by
    rw [GameRoom.current_player_id, if_pos ⟨hord, hplay⟩]
    exact hpid_get
  have hlast : lastN room.revealed_this_turn 3 = room.revealed_this_turn := by
    rw [lastN, hlen, Nat.sub_self, List.drop_zero]
  obtain ⟨q, hfq, hqpid⟩ := find?_pid_of_mem room.players pid hpid_pids
  rw [complete_trio_unfold room pid hcur, hlast]
  refine Inv_check_win _ pid ?_ ?_
  · intro hcc
    have h' : room.state = Phase.waiting := hcc
    rw [hplay] at h'
    cases h'
  refine ⟨⟨?_, ?_, ?_, ?_, ?_, ?_, ?_, ?_, ?_, ?_⟩, ?_⟩
  · exact hc.maxP
  · exact hc.minP
  · show ((room.players.map (fun p => if p.pid = pid then
      { p with trios := p.trios ++ [room.revealed_this_turn.map (fun r => r.card)] }
      else p)).map (fun p => p.pid)).Nodup
    rw [map_pid_map_if room.players pid (fun p =>
      { p with trios := p.trios ++ [room.revealed_this_turn.map (fun r => r.card)] })
      (fun p => rfl)]
    exact hc.pidsNodup
  · intro h
    have h' : room.state = Phase.waiting := h
    rw [hplay] at h'
    cases h'
  · intro _
    show ((room.players.map (fun p => if p.pid = pid then
        { p with trios := p.trios ++ [room.revealed_this_turn.map (fun r => r.card)] }
        else p)).map (fun p => p.hand.length)).sum +
      3 * ((room.players.map (fun p => if p.pid = pid then
        { p with trios := p.trios ++ [room.revealed_this_turn.map (fun r => r.card)] }
        else p)).map (fun p => p.trios.length)).sum +
      countDownL room.middle_cards (markTaken room.middle_face_up room.revealed_this_turn) +
      ([] : List RevealedCard).length = 36
    have hcm := countDownL_markTaken room.revealed_this_turn room.middle_cards
      room.middle_face_up (fun r hr hrm => (hc.revMidUp hnw r hr hrm).2)
      (hc.revMidNodup hnw)
    rw [hcm]
    have e1 := sum_g_map_if room.players pid
      (fun p => { p with trios := p.trios ++ [room.revealed_this_turn.map (fun r => r.card)] })
      (fun p => p.hand.length) hc.pidsNodup q hfq
    have e2 := sum_g_map_if room.players pid
      (fun p => { p with trios := p.trios ++ [room.revealed_this_turn.map (fun r => r.card)] })
      (fun p => p.trios.length) hc.pidsNodup q hfq
    dsimp only at e1 e2
    rw [List.length_append, List.length_singleton] at e2
    have hcnt := hc.counting hnw
    rw [cardCount, handSum, trioSum, middleFaceDownCount_eq, hlen] at hcnt
    simp only [List.length_nil, Nat.add_zero]
    omega
  · intro _
    exact hc.midNodup hnw
  · intro _ r hr
    have hr' : r ∈ ([] : List RevealedCard) := hr
    cases hr'
  · intro _
    exact List.nodup_nil
  · intro _ r hr
    have hr' : r ∈ ([] : List RevealedCard) := hr
    cases hr'
  · intro h
    have h' : room.state = Phase.playing := h
    refine ⟨hord, ?_⟩
    intro x hx
    have hx' : x ∈ room.player_order := hx
    show x ∈ (room.players.map (fun p => if p.pid = pid then
      { p with trios := p.trios ++ [room.revealed_this_turn.map (fun r => r.card)] }
      else p)).map (fun p => p.pid)
    rw [map_pid_map_if room.players pid (fun p =>
      { p with trios := p.trios ++ [room.revealed_this_turn.map (fun r => r.card)] })
      (fun p => rfl)]
    exact hordmem x hx'
  · intro _
    exact seqPending_of_rev_nil _ rfl

/-- The outcome dispatch after a reveal preserves the invariant, given that
every proper prefix of the sequence was left pending. -/
theorem Inv_check_reveal_result (room : GameRoom) (hplay : room.state = Phase.playing)
    (hc : InvCore room)
    (hpend : ∀ k, k < (revealNumbers room).length →
      check_reveal_outcome ((revealNumbers room).take k) = Outcome.noDecision ∨
      check_reveal_outcome ((revealNumbers room).take k) = Outcome.continueTurn) :
    Inv (check_reveal_result room).1 := by
  have hnw : room.state ≠ Phase.waiting := by
    rw [hplay]
    intro hcc
    exact absurd hcc (by decide)
  rcases ho : check_reveal_outcome (revealNumbers room) with - | - | - | -
  · rw [check_reveal_result, ho]
    refine ⟨hc, fun _ => ?_⟩
    intro k hk
    rcases Nat.lt_or_ge k (revealNumbers room).length with h | h
    · exact hpend k h
    · have hkl : k = (revealNumbers room).length := Nat.le_antisymm hk h
      subst hkl
      rw [List.take_length]
      left
      exact ho
  · rw [check_reveal_result, ho]
    have hlen3 := trio_len_of_pending (revealNumbers room) hpend ho
    rw [revealNumbers, List.length_map] at hlen3
    exact Inv_complete_trio room hplay hc hlen3
  · rw [check_reveal_result, ho]
    show Inv (fail_turn room).1
    exact Inv_fail_turn room hplay hc
  · rw [check_reveal_result, ho]
    refine ⟨hc, fun _ => ?_⟩
    intro k hk
    rcases Nat.lt_or_ge k (revealNumbers room).length with h | h
    · exact hpend k h
    · have hkl : k = (revealNumbers room).length := Nat.le_antisymm hk h
      subst hkl
      rw [List.take_length]
      right
      exact ho

/-- Appending one number to a pending sequence keeps every proper prefix
pending. -/
theorem pending_proper_append (ns : List Nat) (x : Nat) (hpend : seqPending ns) :
    ∀ k, k < (ns ++ [x]).length →
      check_reveal_outcome ((ns ++ [x]).take k) = Outcome.noDecision ∨
      check_reveal_outcome ((ns ++ [x]).take k) = Outcome.continueTurn := by
  intro k hk
  rw [List.length_append, List.length_singleton] at hk
  rw [List.take_append_of_le_length (by omega)]
  exact hpend k (by omega)

/-- A middle reveal preserves the invariant. -/
theorem Inv_reveal_middle (room : GameRoom) (pid cid : Nat) (hInv : Inv room) :
    Inv (reveal_from_middle room pid cid).1 := by
  obtain ⟨hc, hpend⟩ := hInv
  rw [reveal_from_middle]
  by_cases hst : room.state = Phase.playing
  · rw [if_neg (fun h => h hst)]
    have hnw : room.state ≠ Phase.waiting := by
      rw [hst]
      intro hcc
      exact absurd hcc (by decide)
    by_cases hturn : room.current_player_id = some pid
    · rw [if_neg (fun h => h hturn)]
      cases hfind : room.middle_cards.find? (fun c => c.id == cid) with
      | none => exact ⟨hc, hpend⟩
      | some card =>
        dsimp only
        by_cases hface : room.middle_face_up cid = MidFace.down
        · rw [if_neg (fun hcc => hcc hface)]
          have hcard_mem : card ∈ room.middle_cards := List.mem_of_find?_eq_some hfind
          have hcard_id : card.id = cid := by
            have h2 := List.find?_some hfind
            have h3 : (card.id == cid) = true := h2
            exact beq_iff_eq.mp h3
          have hcid_mem : cid ∈ middleIds room := by
            rw [middleIds, ← hcard_id]
            exact List.mem_map_of_mem _ hcard_mem
          show Inv (check_reveal_result { room with
              middle_face_up := updFace room.middle_face_up cid MidFace.up
              revealed_this_turn := room.revealed_this_turn ++
                [{ card := card, source := RevealSource.middle, position := none }] }).1
          refine Inv_check_reveal_result _ hst
            ⟨?_, ?_, ?_, ?_, ?_, ?_, ?_, ?_, ?_, ?_⟩ ?_
          · exact hc.maxP
          · exact hc.minP
          · exact hc.pidsNodup
          · intro h
            exact absurd (show room.state = Phase.waiting from h) hnw
          · intro _
            show handSum room + 3 * trioSum room +
                countDownL room.middle_cards (updFace room.middle_face_up cid MidFace.up) +
                (room.revealed_this_turn ++
                  [({ card := card, source := RevealSource.middle,
                      position := none } : RevealedCard)]).length
              = 36
            have hupd := countDownL_updFace room.middle_cards room.middle_face_up cid
              MidFace.up (hc.midNodup hnw) hcid_mem
            rw [if_pos hface, if_neg (show ¬ (MidFace.up = MidFace.down) by decide)] at hupd
            have hcnt := hc.counting hnw
            rw [cardCount, middleFaceDownCount_eq] at hcnt
            rw [List.length_append, List.length_singleton]
            omega
          · intro _
            exact hc.midNodup hnw
          · intro _ r hr hrm
            have hr' : r ∈ room.revealed_this_turn ++
                [{ card := card, source := RevealSource.middle, position := none }] := hr
            rcases List.mem_append.mp hr' with h | h
            · obtain ⟨hm1, hm2⟩ := hc.revMidUp hnw r h hrm
              refine ⟨hm1, ?_⟩
              show updFace room.middle_face_up cid MidFace.up r.card.id = MidFace.up
              rw [updFace]
              by_cases hrc : r.card.id = cid
              · rw [if_pos hrc]
              · rw [if_neg hrc]
                exact hm2
            · have hrlit := List.mem_singleton.mp h
              subst hrlit
              refine ⟨?_, ?_⟩
              · show card.id ∈ middleIds room
                exact List.mem_map_of_mem _ hcard_mem
              · show updFace room.middle_face_up cid MidFace.up card.id = MidFace.up
                rw [updFace, if_pos hcard_id]
          · intro _
            show (midSourceIds (room.revealed_this_turn ++
              [{ card := card, source := RevealSource.middle, position := none }])).Nodup
            rw [midSourceIds_append]
            have hone : midSourceIds
                [{ card := card, source := RevealSource.middle, position := none }] =
                [card.id] := rfl
            rw [hone, List.nodup_append]
            refine ⟨hc.revMidNodup hnw, List.nodup_singleton _, ?_⟩
            intro x hx1 hx2
            have hxc : x = card.id := List.mem_singleton.mp hx2
            subst hxc
            obtain ⟨r, hrmem, hrs, hri⟩ := midSourceIds_mem_inv _ _ hx1
            have hfup := (hc.revMidUp hnw r hrmem hrs).2
            rw [hri, hcard_id, hface] at hfup
            exact absurd hfup (by decide)
          · intro _ r hr p hp
            have hr' : r ∈ room.revealed_this_turn ++
                [{ card := card, source := RevealSource.middle, position := none }] := hr
            rcases List.mem_append.mp hr' with h | h
            · exact hc.revPlayerMem hnw r h p hp
            · have hrlit := List.mem_singleton.mp h
              subst hrlit
              have hp' : RevealSource.middle = RevealSource.player p := hp
              cases hp'
          · intro _
            exact hc.orderOk hst
          · simp only [revealNumbers, List.map_append, List.map_singleton]
            exact pending_proper_append _ card.number (hpend hnw)
        · rw [if_pos hface]
          exact ⟨hc, hpend⟩
    · rw [if_pos hturn]
      exact ⟨hc, hpend⟩
  · rw [if_pos hst]
    exact ⟨hc, hpend⟩

/-- A hand reveal preserves the invariant. -/
theorem Inv_reveal_player (room : GameRoom) (pid tgt : Nat) (pos : String)
    (hInv : Inv room) : Inv (reveal_from_player room pid tgt pos).1 := by
  obtain ⟨hc, hpend⟩ := hInv
  rw [reveal_from_player]
  by_cases hst : room.state = Phase.playing
  · rw [if_neg (fun h => h hst)]
    have hnw : room.state ≠ Phase.waiting := by
      rw [hst]
      intro hcc
      exact absurd hcc (by decide)
    by_cases hturn : room.current_player_id = some pid
    · rw [if_neg (fun h => h hturn)]
      by_cases hposg : pos ≠ "lowest" ∧ pos ≠ "highest"
      · rw [if_pos hposg]
        exact ⟨hc, hpend⟩
      · rw [if_neg hposg]
        cases hfind : room.findPlayer tgt with
        | none => exact ⟨hc, hpend⟩
        | some target =>
          dsimp only
          by_cases hemp : target.hand.isEmpty = true
          · rw [if_pos hemp]
            exact ⟨hc, hpend⟩
          · rw [if_neg hemp]
            cases hcard : (if pos = "lowest" then target.get_lowest else target.get_highest) with
            | none => exact ⟨hc, hpend⟩
            | some card =>
              dsimp only
              have hfind' : room.players.find? (fun p => p.pid == tgt) = some target := hfind
              have htarget_mem : target ∈ room.players := List.mem_of_find?_eq_some hfind'
              have htgt_pid : target.pid = tgt := by
                have h2 := List.find?_some hfind'
                have h3 : (target.pid == tgt) = true := h2
                exact beq_iff_eq.mp h3
              have hcard_mem : card ∈ target.hand := by
                by_cases hlow : pos = "lowest"
                · rw [if_pos hlow] at hcard
                  have h1 : target.hand.head? = some card := hcard
                  exact List.mem_of_mem_head? h1
                · rw [if_neg hlow] at hcard
                  have h1 : target.hand.getLast? = some card := hcard
                  exact mem_of_getLast?_eq _ _ h1
              show Inv (check_reveal_result
                { room.updatePlayer tgt
                    (fun p => { p with hand := removeFirstById p.hand card.id }) with
                  revealed_this_turn := room.revealed_this_turn ++
                    [{ card := card, source := RevealSource.player tgt,
                       position := some pos }] }).1
              refine Inv_check_reveal_result _ hst
                ⟨?_, ?_, ?_, ?_, ?_, ?_, ?_, ?_, ?_, ?_⟩ ?_
              · exact hc.maxP
              · exact hc.minP
              · show ((room.players.map (fun p => if p.pid = tgt then
                  { p with hand := removeFirstById p.hand card.id } else p)).map
                    (fun p => p.pid)).Nodup
                rw [map_pid_map_if room.players tgt
                  (fun p => { p with hand := removeFirstById p.hand card.id })
                  (fun p => rfl)]
                exact hc.pidsNodup
              · intro h
                exact absurd (show room.state = Phase.waiting from h) hnw
              · intro _
                show ((room.players.map (fun p => if p.pid = tgt then
                    { p with hand := removeFirstById p.hand card.id } else p)).map
                      (fun p => p.hand.length)).sum +
                  3 * ((room.players.map (fun p => if p.pid = tgt then
                    { p with hand := removeFirstById p.hand card.id } else p)).map
                      (fun p => p.trios.length)).sum +
                  countDownL room.middle_cards room.middle_face_up +
                  (room.revealed_this_turn ++
                    [({ card := card, source := RevealSource.player tgt,
                        position := some pos } : RevealedCard)]).length = 36
                have e1 := sum_g_map_if room.players tgt
                  (fun p => { p with hand := removeFirstById p.hand card.id })
                  (fun p => p.hand.length) hc.pidsNodup target hfind'
                have e2 := sum_g_map_if room.players tgt
                  (fun p => { p with hand := removeFirstById p.hand card.id })
                  (fun p => p.trios.length) hc.pidsNodup target hfind'
                dsimp only at e1 e2
                have hrem := removeFirstById_length target.hand card.id ⟨card, hcard_mem, rfl⟩
                have hcnt := hc.counting hnw
                rw [cardCount, handSum, trioSum, middleFaceDownCount_eq] at hcnt
                rw [List.length_append, List.length_singleton]
                omega
              · intro _
                exact hc.midNodup hnw
              · intro _ r hr hrm
                have hr' : r ∈ room.revealed_this_turn ++
                    [{ card := card, source := RevealSource.player tgt,
                       position := some pos }] := hr
                rcases List.mem_append.mp hr' with h | h
                · exact hc.revMidUp hnw r h hrm
                · have hrlit := List.mem_singleton.mp h
                  subst hrlit
                  have hrm' : RevealSource.player tgt = RevealSource.middle := hrm
                  cases hrm'
              · intro _
                show (midSourceIds (room.revealed_this_turn ++
                  [{ card := card, source := RevealSource.player tgt,
                     position := some pos }])).Nodup
                rw [midSourceIds_append]
                have hone : midSourceIds
                    [{ card := card, source := RevealSource.player tgt,
                       position := some pos }] = [] := rfl
                rw [hone, List.append_nil]
                exact hc.revMidNodup hnw
              · intro _ r hr p hp
                have hr' : r ∈ room.revealed_this_turn ++
                    [{ card := card, source := RevealSource.player tgt,
                       position := some pos }] := hr
                show p ∈ (room.players.map (fun x => if x.pid = tgt then
                  { x with hand := removeFirstById x.hand card.id } else x)).map
                    (fun x => x.pid)
                rw [map_pid_map_if room.players tgt
                  (fun x => { x with hand := removeFirstById x.hand card.id })
                  (fun x => rfl)]
                rcases List.mem_append.mp hr' with h | h
                · exact hc.revPlayerMem hnw r h p hp
                · have hrlit := List.mem_singleton.mp h
                  subst hrlit
                  have hp' : RevealSource.player tgt = RevealSource.player p := hp
                  injection hp' with hp2
                  subst hp2
                  rw [← htgt_pid]
                  exact List.mem_map_of_mem _ htarget_mem
              · intro h
                have h' : room.state = Phase.playing := h
                obtain ⟨h1, h2⟩ := hc.orderOk h'
                refine ⟨h1, ?_⟩
                intro x hx
                have hx' : x ∈ room.player_order := hx
                show x ∈ (room.players.map (fun y => if y.pid = tgt then
                  { y with hand := removeFirstById y.hand card.id } else y)).map
                    (fun y => y.pid)
                rw [map_pid_map_if room.players tgt
                  (fun y => { y with hand := removeFirstById y.hand card.id })
                  (fun y => rfl)]
                exact h2 x hx'
              · simp only [revealNumbers, List.map_append, List.map_singleton]
                exact pending_proper_append _ card.number (hpend hnw)
    · rw [if_pos hturn]
      exact ⟨hc, hpend⟩
  · rw [if_pos hst]
    exact ⟨hc, hpend⟩

/-- Every room reachable with game starts taken only from the waiting phase
satisfies the full invariant. -/
theorem ReachW_Inv (room : GameRoom) (h : ReachW room) : Inv room := by
  induction h with
  | created mode => exact Inv_create mode
  | joined pid _ hfresh ih => exact Inv_connect _ pid ih hfresh
  | left pid _ ih => exact Inv_disconnect _ pid ih
  | modeSet m _ ih => exact Inv_set_mode _ m ih
  | started req deck order _ hw hdeck horder ih =>
    exact Inv_start _ req deck order ih hw hdeck horder
  | revealedMiddle pid cid _ ih => exact Inv_reveal_middle _ pid cid ih
  | revealedPlayer pid tgt pos _ ih => exact Inv_reveal_player _ pid tgt pos ih

/-- C6 counterexample: the engine's own operations reach a playing room with
an empty reveal sequence whose card count is 39, not 36.  `start_game`
carries no phase guard, so a second start against the already-playing
`roomF` re-deals all 36 cards while player 0's captured trio of three cards
stays on their tally. -/
theorem conservation_claim_cex :
    Reach roomG ∧ roomG.state = Phase.playing ∧ roomG.revealed_this_turn = [] ∧
      cardCount roomG ≠ 36 := by
  have h0 : Reach roomA := Reach.created "simple"
  have h1 : Reach (connect roomA 0).1 := Reach.joined 0 h0 (by decide)
  have h2 : Reach (connect (connect roomA 0).1 1).1 := Reach.joined 1 h1 (by decide)
  have h3 : Reach roomB := Reach.joined 2 h2 (by decide)
  have h4 : Reach roomC :=
    Reach.started 0 trioDeck [0, 1, 2] h3 (List.Perm.refl _)
      (by rw [show pids roomB = [0, 1, 2] from rfl])
  have h5 : Reach roomD := Reach.revealedPlayer 0 0 "lowest" h4
  have h6 : Reach roomE := Reach.revealedPlayer 0 0 "lowest" h5
  have h7 : Reach roomF := Reach.revealedPlayer 0 0 "lowest" h6
  have h8 : Reach roomG :=
    Reach.started 0 trioDeck [0, 1, 2] h7 (List.Perm.refl _)
      (by rw [show pids roomF = [0, 1, 2] from rfl])
  exact ⟨h8, rfl, rfl, by decide⟩

/-- C6 (amended): in every room reached without ever issuing `start_game`
against a room that has already left the waiting phase, whenever the room
is playing and the reveal sequence is empty, the sum of hand sizes plus 3
times the number of captured trios plus the face-down middle count equals
36; the invariant is established by the deal and preserved by every reveal
with its trio-completion and fail-revert cascades. -/
theorem conservation_invariant_amended (room : GameRoom) (h : ReachW room)
    (hplay : room.state = Phase.playing) (hrev : room.revealed_this_turn = []) :
    cardCount room = 36 := by
  obtain ⟨hc, -⟩ := ReachW_Inv room h
  have hcnt := hc.counting (by
    rw [hplay]
    intro hcc
    exact absurd hcc (by decide))
  rw [hrev, List.length_nil, Nat.add_zero] at hcnt
  exact hcnt

theorem conservation_invariant_amended_witness : cardCount roomC = 36 := by
  have h0 : ReachW roomA := ReachW.created "simple"
  have h1 : ReachW (connect roomA 0).1 := ReachW.joined 0 h0 (by decide)
  have h2 : ReachW (connect (connect roomA 0).1 1).1 := ReachW.joined 1 h1 (by decide)
  have h3 : ReachW roomB := ReachW.joined 2 h2 (by decide)
  have h4 : ReachW roomC :=
    ReachW.started 0 trioDeck [0, 1, 2] h3 rfl (List.Perm.refl _)
      (by rw [show pids roomB = [0, 1, 2] from rfl])
  exact conservation_invariant_amended roomC h4 rfl rfl

end TrioGame
